import Mathlib

/-!
Demand paging simulators.

A shallow embedding of the two simulators of the repository:

* `src/clock_replacement.c`: the Clock (second-chance) page replacement policy;
* `src/tlb_pagetable.c`: the two-level page table with a 16-entry TLB.

Conventions of the embedding.

* A C `int` is an `Int`.  Signed overflow is undefined in C, so the model is
  faithful as long as the counters stay below `INT_MAX`.
* A `uint32_t` or `uint64_t` is a `Nat`, reduced `% 2 ^ 32` or `% 2 ^ 64`
  wherever the C operation can wrap.
* A C array is a function from its index type; only the indices inside the
  array are meaningful.
* A `for (i = 0; i < n; i++)` loop is a recursion on the number of remaining
  iterations, carrying the index `i`.
* The `while (true)` loop of `find_victim` is a recursion on a fuel argument;
  `none` means that the fuel ran out.
* Storage obtained from `malloc` is indeterminate; it is an argument
  (`uninit`) of the initialisation functions.
-/

namespace DemandPaging

/-! ## Clock replacement: data model -/

/-- Capacity of the frame table, `#define MAX_FRAMES 100`. -/
def MAX_FRAMES : Int := 100

/-- The struct `Frame`; `page_number = -1` encodes an empty frame. -/
structure Frame where
  page_number : Int
  reference_bit : Bool
  dirty_bit : Bool
deriving DecidableEq

/-- The struct `ClockPageReplacement`. -/
structure ClockPageReplacement where
  frames : Int → Frame
  num_frames : Int
  clock_hand : Int
  page_faults : Int
  page_replacements : Int
  disk_writes : Int

/-- The initialisation loop of `init_clock`: `k` iterations remain, the loop
index is `i`. -/
def init_clock_loop : Nat → Int → (Int → Frame) → (Int → Frame)
  | 0, _, frames => frames
  | k + 1, i, frames =>
    init_clock_loop k (i + 1) (Function.update frames i ⟨-1, false, false⟩)

/-- The function `init_clock`.  It has no failure path: whatever `num_frames`
is, a manager is returned. -/
def init_clock (num_frames : Int) (uninit : Int → Frame) : ClockPageReplacement :=
  { frames := init_clock_loop num_frames.toNat 0 uninit
    num_frames := num_frames
    clock_hand := 0
    page_faults := 0
    page_replacements := 0
    disk_writes := 0 }

/-- The loop of `find_page`: `k` iterations remain, the loop index is `i`. -/
def find_page_loop (frames : Int → Frame) (page_number : Int) : Nat → Int → Int
  | 0, _ => -1
  | k + 1, i =>
    if (frames i).page_number = page_number then i
    else find_page_loop frames page_number k (i + 1)

/-- The function `find_page`: index of the first frame holding the page, or `-1`. -/
def find_page (clock : ClockPageReplacement) (page_number : Int) : Int :=
  find_page_loop clock.frames page_number clock.num_frames.toNat 0

/-- The loop of `find_empty_frame`. -/
def find_empty_frame_loop (frames : Int → Frame) : Nat → Int → Int
  | 0, _ => -1
  | k + 1, i =>
    if (frames i).page_number = -1 then i
    else find_empty_frame_loop frames k (i + 1)

/-- The function `find_empty_frame`: index of the first empty frame, or `-1`. -/
def find_empty_frame (clock : ClockPageReplacement) : Int :=
  find_empty_frame_loop clock.frames clock.num_frames.toNat 0

/-- One pass over the body of the `while (true)` loop of `find_victim` when the
frame under the hand has its reference bit set: the bit is cleared and the hand
advances. -/
def clear_and_advance (clock : ClockPageReplacement) : ClockPageReplacement :=
  { clock with
    frames := Function.update clock.frames clock.clock_hand
      { clock.frames clock.clock_hand with reference_bit := false }
    clock_hand := Int.tmod (clock.clock_hand + 1) clock.num_frames }

/-- The function `find_victim`.  Each iteration of the `while (true)` loop uses
one unit of fuel.  The result is the victim index and the updated manager. -/
def find_victim : Nat → ClockPageReplacement → Option (Int × ClockPageReplacement)
  | 0, _ => none
  | fuel + 1, clock =>
    if !(clock.frames clock.clock_hand).reference_bit then
      some (clock.clock_hand,
        { clock with clock_hand := Int.tmod (clock.clock_hand + 1) clock.num_frames })
    else
      find_victim fuel (clear_and_advance clock)

/-- Lines 116-119 of `access_page`: load the new page into the chosen frame. -/
def load_page (clock : ClockPageReplacement) (frame_index page_number : Int)
    (is_write : Bool) : ClockPageReplacement :=
  { clock with
    frames := Function.update clock.frames frame_index ⟨page_number, true, is_write⟩ }

/-- Lines 108-113 of `access_page`: account for the eviction of `frame_index`. -/
def count_replacement (clock : ClockPageReplacement) (frame_index : Int) :
    ClockPageReplacement :=
  { clock with
    disk_writes :=
      if (clock.frames frame_index).dirty_bit then clock.disk_writes + 1
      else clock.disk_writes
    page_replacements := clock.page_replacements + 1 }

/-- The function `access_page`; `fuel` is handed to `find_victim`. -/
def access_page (fuel : Nat) (clock : ClockPageReplacement) (page_number : Int)
    (is_write : Bool) : Option ClockPageReplacement :=
  let frame_index := find_page clock page_number
  if frame_index ≠ -1 then
    some { clock with
      frames := Function.update clock.frames frame_index
        { clock.frames frame_index with
          reference_bit := true
          dirty_bit := if is_write then true else (clock.frames frame_index).dirty_bit } }
  else
    let clock1 := { clock with page_faults := clock.page_faults + 1 }
    let frame_index := find_empty_frame clock1
    if frame_index = -1 then
      match find_victim fuel clock1 with
      | none => none
      | some (victim, clock2) =>
        some (load_page (count_replacement clock2 victim) victim page_number is_write)
    else
      some (load_page clock1 frame_index page_number is_write)

/-- The driver loop of `main`: `access_page` on each reference in turn. -/
def run_accesses (fuel : Nat) :
    ClockPageReplacement → List (Int × Bool) → Option ClockPageReplacement
  | clock, [] => some clock
  | clock, (page, is_write) :: rest =>
    match access_page fuel clock page is_write with
    | none => none
    | some clock1 => run_accesses fuel clock1 rest

/-- Position of frame `i` in the cyclic order that starts at frame `h`, in a
table of `n` frames. -/
def cyclic_pos (n h i : Int) : Int := (i - h) % n

/-- The manager after the hand of `find_victim` has passed over the first `k`
frames of the cyclic order that starts at the hand: their reference bits are
cleared and the hand has advanced `k` positions. -/
def swept (clock : ClockPageReplacement) (k : Int) : ClockPageReplacement :=
  { clock with
    frames := fun i =>
      if 0 ≤ i ∧ i < clock.num_frames ∧
          cyclic_pos clock.num_frames clock.clock_hand i < k then
        { clock.frames i with reference_bit := false }
      else clock.frames i
    clock_hand := (clock.clock_hand + k) % clock.num_frames }

/-- A frame table used in examples: frames 0 and 1 have their reference bit
set, frame 2 has it clear and is dirty. -/
def example_frames : Int → Frame := fun i =>
  if i = 2 then ⟨3, false, true⟩ else ⟨i, true, false⟩

/-! ## Address translation: data model -/

/-- Number of TLB entries, `#define TLB_SIZE 16`. -/
def TLB_SIZE : Nat := 16

/-- The constant `OFFSET_BITS`. -/
def OFFSET_BITS : Nat := 12

/-- The constant `INNER_PAGE_BITS`. -/
def INNER_PAGE_BITS : Nat := 10

/-- The constant `OUTER_MASK`, the top 10 bits. -/
def OUTER_MASK : Nat := 0xFFC00000

/-- The constant `INNER_MASK`, the middle 10 bits. -/
def INNER_MASK : Nat := 0x003FF000

/-- The constant `OFFSET_MASK`, the bottom 12 bits. -/
def OFFSET_MASK : Nat := 0x00000FFF

/-- The struct `TLBEntry`. -/
structure TLBEntry where
  valid : Bool
  vpn : Nat
  frame_number : Nat
  access_time : Nat
deriving DecidableEq

/-- The struct `PageTableEntry`. -/
structure PageTableEntry where
  present : Bool
  frame_number : Nat
  dirty : Bool
  referenced : Bool
deriving DecidableEq

/-- The struct `InnerPageTable`: 1024 entries. -/
structure InnerPageTable where
  entries : Nat → PageTableEntry

/-- The struct `TwoLevelPageTable`.  A `NULL` slot of the outer table is `none`. -/
structure TwoLevelPageTable where
  outer_table : Nat → Option InnerPageTable
  tlb : Int → TLBEntry
  tlb_hits : Nat
  tlb_misses : Nat
  page_table_accesses : Nat
  access_counter : Nat

/-- The TLB initialisation loop of `init_page_table`: only `valid` and
`access_time` are written. -/
def init_tlb_loop : Nat → Int → (Int → TLBEntry) → (Int → TLBEntry)
  | 0, _, tlb => tlb
  | k + 1, i, tlb =>
    init_tlb_loop k (i + 1)
      (Function.update tlb i { tlb i with valid := false, access_time := 0 })

/-- The function `init_page_table`; the outer table comes from `calloc`, so
every slot is `NULL`. -/
def init_page_table (uninit : Int → TLBEntry) : TwoLevelPageTable :=
  { outer_table := fun _ => none
    tlb := init_tlb_loop TLB_SIZE 0 uninit
    tlb_hits := 0
    tlb_misses := 0
    page_table_accesses := 0
    access_counter := 0 }

/-- The function `extract_address_components`: `(outer, inner, offset)`. -/
def extract_address_components (virtual_addr : Nat) : Nat × Nat × Nat :=
  ((virtual_addr &&& OUTER_MASK) >>> (INNER_PAGE_BITS + OFFSET_BITS),
   (virtual_addr &&& INNER_MASK) >>> OFFSET_BITS,
   virtual_addr &&& OFFSET_MASK)

/-- The virtual page number computed at line 126 of `translate_address`. -/
def vpn_of (virtual_addr : Nat) : Nat := (virtual_addr >>> OFFSET_BITS) &&& 0xFFFFF

/-- The loop of `tlb_lookup`: `k` iterations remain, the loop index is `i`.
On a hit the result carries the frame number. -/
def tlb_lookup_loop (pt : TwoLevelPageTable) (vpn : Nat) :
    Nat → Int → Option Nat × TwoLevelPageTable
  | 0, _ => (none, { pt with tlb_misses := (pt.tlb_misses + 1) % 2 ^ 64 })
  | k + 1, i =>
    if (pt.tlb i).valid && (pt.tlb i).vpn == vpn then
      (some (pt.tlb i).frame_number,
        { pt with
          tlb := Function.update pt.tlb i { pt.tlb i with access_time := pt.access_counter }
          access_counter := (pt.access_counter + 1) % 2 ^ 64
          tlb_hits := (pt.tlb_hits + 1) % 2 ^ 64 })
    else tlb_lookup_loop pt vpn k (i + 1)

/-- The function `tlb_lookup`. -/
def tlb_lookup (pt : TwoLevelPageTable) (vpn : Nat) : Option Nat × TwoLevelPageTable :=
  tlb_lookup_loop pt vpn TLB_SIZE 0

/-- First loop of `tlb_update`: index of the first invalid entry, or `-1`. -/
def find_invalid_loop (tlb : Int → TLBEntry) : Nat → Int → Int
  | 0, _ => -1
  | k + 1, i => if !(tlb i).valid then i else find_invalid_loop tlb k (i + 1)

/-- Second loop of `tlb_update`: the LRU scan, carrying `oldest_time` and
`replace_index`. -/
def lru_loop (tlb : Int → TLBEntry) : Nat → Int → Nat → Int → Int
  | 0, _, _, replace_index => replace_index
  | k + 1, i, oldest_time, replace_index =>
    if (tlb i).access_time < oldest_time then lru_loop tlb k (i + 1) (tlb i).access_time i
    else lru_loop tlb k (i + 1) oldest_time replace_index

/-- The slot that `tlb_update` overwrites. -/
def replace_index (tlb : Int → TLBEntry) : Int :=
  if find_invalid_loop tlb TLB_SIZE 0 = -1 then
    lru_loop tlb (TLB_SIZE - 1) 1 (tlb 0).access_time 0
  else find_invalid_loop tlb TLB_SIZE 0

/-- The function `tlb_update`. -/
def tlb_update (pt : TwoLevelPageTable) (vpn frame : Nat) : TwoLevelPageTable :=
  { pt with
    tlb := Function.update pt.tlb (replace_index pt.tlb) ⟨true, vpn, frame, pt.access_counter⟩
    access_counter := (pt.access_counter + 1) % 2 ^ 64 }

/-- What `translate_address` hands back: the return value, the flag written
through `page_fault`, and the updated translator. -/
structure Translation where
  physical : Nat
  page_fault : Bool
  pt : TwoLevelPageTable

/-- The function `translate_address`. -/
def translate_address (pt : TwoLevelPageTable) (virtual_addr : Nat) : Translation :=
  let (outer_index, inner_index, offset) := extract_address_components virtual_addr
  let vpn := vpn_of virtual_addr
  match tlb_lookup pt vpn with
  | (some frame_number, pt1) =>
    ⟨((frame_number <<< OFFSET_BITS) % 2 ^ 32) ||| offset, false, pt1⟩
  | (none, pt1) =>
    let pt2 := { pt1 with page_table_accesses := (pt1.page_table_accesses + 1) % 2 ^ 64 }
    match pt2.outer_table outer_index with
    | none => ⟨0, true, pt2⟩
    | some inner_table =>
      let pt3 := { pt2 with page_table_accesses := (pt2.page_table_accesses + 1) % 2 ^ 64 }
      let pte := inner_table.entries inner_index
      if !pte.present then ⟨0, true, pt3⟩
      else
        ⟨((pte.frame_number <<< OFFSET_BITS) % 2 ^ 32) ||| offset, false,
          tlb_update pt3 vpn pte.frame_number⟩

/-- An inner table fresh from `calloc`: every byte is zero. -/
def zeroed_inner_table : InnerPageTable :=
  ⟨fun _ => ⟨false, 0, false, false⟩⟩

/-- The function `map_page`. -/
def map_page (pt : TwoLevelPageTable) (virtual_addr frame : Nat) : TwoLevelPageTable :=
  let (outer_index, inner_index, _) := extract_address_components virtual_addr
  let inner_table :=
    match pt.outer_table outer_index with
    | none => zeroed_inner_table
    | some t => t
  { pt with
    outer_table := Function.update pt.outer_table outer_index
      (some ⟨Function.update inner_table.entries inner_index ⟨true, frame, false, true⟩⟩) }

/-- A call made by a driver of the translator. -/
inductive Call where
  | map (virtual_addr frame : Nat)
  | translate (virtual_addr : Nat)
deriving DecidableEq

/-- Arguments of a call fit their `uint32_t` parameters. -/
def Call.fits : Call → Prop
  | .map virtual_addr frame => virtual_addr < 2 ^ 32 ∧ frame < 2 ^ 32
  | .translate virtual_addr => virtual_addr < 2 ^ 32

/-- Effect of one call on the translator. -/
def apply_call (pt : TwoLevelPageTable) : Call → TwoLevelPageTable
  | .map virtual_addr frame => map_page pt virtual_addr frame
  | .translate virtual_addr => (translate_address pt virtual_addr).pt

/-- Effect of a sequence of calls, in order. -/
def run_calls (pt : TwoLevelPageTable) (calls : List Call) : TwoLevelPageTable :=
  calls.foldl apply_call pt

/-- A translator state reached from `init_page_table` by `map_page` and
`translate_address` calls. -/
def Reachable (pt : TwoLevelPageTable) : Prop :=
  ∃ uninit calls, (∀ c ∈ calls, c.fits) ∧ pt = run_calls (init_page_table uninit) calls

/-- A TLB content left behind by `malloc`, used in examples. -/
def stale_tlb : Int → TLBEntry := fun _ => ⟨true, 0, 0, 0⟩

/-- A reachable translator state used in examples: page 1 is mapped to frame 5
and translated once, so that the TLB holds the pair (1, 5). -/
def cached_example : TwoLevelPageTable :=
  run_calls (init_page_table stale_tlb) [Call.map 0x1000 5, Call.translate 0x1000]

/-- A frame table content left behind by `malloc`, used in examples. -/
def stale_frames : Int → Frame := fun _ => ⟨7, true, true⟩

/-- A plain two-level table walk without any TLB, written after the table walk
of the specification: a page fault (return value 0) when the outer slot has no
inner table or the PTE is not present, otherwise the frame number of the PTE
shifted left by 12 and or-ed with the offset.  The result is the pair of the
physical address and the fault flag; no state is changed. -/
def plain_table_walk (pt : TwoLevelPageTable) (virtual_addr : Nat) : Nat × Bool :=
  match pt.outer_table (extract_address_components virtual_addr).1 with
  | none => (0, true)
  | some inner_table =>
    if (inner_table.entries (extract_address_components virtual_addr).2.1).present then
      ((((inner_table.entries (extract_address_components virtual_addr).2.1).frame_number
          <<< 12) % 2 ^ 32) ||| (extract_address_components virtual_addr).2.2, false)
    else (0, true)


/-- The frames whose reference bit the loop of `find_victim` clears, in the
order in which the hand reaches them.  Same recursion as `find_victim`; a
ghost trace of the sweep that the C code does not compute. -/
def find_victim_cleared : Nat → ClockPageReplacement → List Int
  | 0, _ => []
  | fuel + 1, clock =>
    if !(clock.frames clock.clock_hand).reference_bit then []
    else clock.clock_hand :: find_victim_cleared fuel (clear_and_advance clock)

/-- The number of frames of the table whose `page_number` is not `-1`. -/
def occupied_count (clock : ClockPageReplacement) : Nat :=
  (List.range clock.num_frames.toNat).countP
    (fun i : Nat => decide ((clock.frames (i : Int)).page_number ≠ -1))

/-- The events of the scenario of the specification, `(page, is_write)`; they
are the first seven references of the default sequence of `main`. -/
def scenario_events : List (Int × Bool) :=
  [(1, false), (2, false), (3, true), (4, false), (1, false), (2, true), (5, false)]


/-! ## Address decomposition -/

theorem and_shiftLeft_shiftRight (a m k : Nat) :
    (a &&& (m <<< k)) >>> k = (a >>> k) &&& m := by
  apply Nat.eq_of_testBit_eq
  intro j
  simp [Nat.testBit_shiftRight, Nat.testBit_and, Nat.testBit_shiftLeft]

theorem outer_eq_div (a : Nat) (ha : a < 2 ^ 32) :
    (extract_address_components a).1 = a / 2 ^ 22 := by
  have hm : OUTER_MASK = (2 ^ 10 - 1) <<< 22 := by decide
  simp only [extract_address_components, hm, INNER_PAGE_BITS, OFFSET_BITS]
  rw [and_shiftLeft_shiftRight, Nat.and_pow_two_sub_one_eq_mod, Nat.shiftRight_eq_div_pow]
  omega

theorem inner_eq_div_mod (a : Nat) :
    (extract_address_components a).2.1 = a / 2 ^ 12 % 2 ^ 10 := by
  have hm : INNER_MASK = (2 ^ 10 - 1) <<< 12 := by decide
  simp only [extract_address_components, hm, OFFSET_BITS]
  rw [and_shiftLeft_shiftRight, Nat.and_pow_two_sub_one_eq_mod, Nat.shiftRight_eq_div_pow]

theorem offset_eq_mod (a : Nat) :
    (extract_address_components a).2.2 = a % 2 ^ 12 := by
  have hm : OFFSET_MASK = 2 ^ 12 - 1 := by decide
  simp only [extract_address_components, hm]
  rw [Nat.and_pow_two_sub_one_eq_mod]

theorem vpn_of_eq_div_mod (a : Nat) : vpn_of a = a / 2 ^ 12 % 2 ^ 20 := by
  have hm : (0xFFFFF : Nat) = 2 ^ 20 - 1 := by decide
  simp only [vpn_of, hm, OFFSET_BITS]
  rw [Nat.and_pow_two_sub_one_eq_mod, Nat.shiftRight_eq_div_pow]

theorem vpn_of_eq_div (a : Nat) (ha : a < 2 ^ 32) : vpn_of a = a / 2 ^ 12 := by
  rw [vpn_of_eq_div_mod]
  omega

/-- Claim C8.  For a 32-bit address `a`, `extract_address_components` yields
`outer = a >> 22 < 1024`, `inner = (a >> 12) & 0x3FF < 1024` and
`offset = a & 0xFFF < 4096`; the VPN of `translate_address` is
`outer * 1024 + inner`; `a` is `(outer << 22) | (inner << 12) | offset`; and
`0x00401ABC` decomposes to outer 1, inner 1, offset `0xABC`. -/
theorem address_decomposition (a : Nat) (ha : a < 2 ^ 32) :
    (extract_address_components a).1 = a >>> 22 ∧
    (extract_address_components a).1 < 1024 ∧
    (extract_address_components a).2.1 = (a >>> 12) &&& 0x3FF ∧
    (extract_address_components a).2.1 < 1024 ∧
    (extract_address_components a).2.2 = a &&& 0xFFF ∧
    (extract_address_components a).2.2 < 4096 ∧
    vpn_of a =
      (extract_address_components a).1 * 1024 + (extract_address_components a).2.1 ∧
    a = ((extract_address_components a).1 <<< 22) |||
          ((extract_address_components a).2.1 <<< 12) |||
          (extract_address_components a).2.2 ∧
    extract_address_components 0x00401ABC = (1, 1, 0xABC) := by
  have h3ff : (0x3FF : Nat) = 2 ^ 10 - 1 := by decide
  have hfff : (0xFFF : Nat) = 2 ^ 12 - 1 := by decide
  have ho := outer_eq_div a ha
  have hi := inner_eq_div_mod a
  have hf := offset_eq_mod a
  have hv := vpn_of_eq_div a ha
  refine ⟨?_, ?_, ?_, ?_, ?_, ?_, ?_, ?_, by decide⟩
  · rw [ho, Nat.shiftRight_eq_div_pow]
  · rw [ho]; omega
  · rw [hi, h3ff, Nat.and_pow_two_sub_one_eq_mod, Nat.shiftRight_eq_div_pow]
  · rw [hi]; omega
  · rw [hf, hfff, Nat.and_pow_two_sub_one_eq_mod]
  · rw [hf]; omega
  · rw [hv, ho, hi]; omega
  · rw [ho, hi, hf, Nat.shiftLeft_eq, Nat.shiftLeft_eq]
    have h1 : a / 2 ^ 22 * 2 ^ 22 ||| a / 2 ^ 12 % 2 ^ 10 * 2 ^ 12
        = 2 ^ 12 * (a / 2 ^ 12) := by
      have h := Nat.mul_add_lt_is_or
        (show a / 2 ^ 12 % 2 ^ 10 * 2 ^ 12 < 2 ^ 22 by omega) (a / 2 ^ 22)
      rw [Nat.mul_comm (a / 2 ^ 22) (2 ^ 22), ← h]
      omega
    rw [h1, ← Nat.mul_add_lt_is_or (show a % 2 ^ 12 < 2 ^ 12 by omega)]
    omega

/-- Witness for C8 at the address `0xDEADBEEF`. -/
theorem address_decomposition_witness :
    (extract_address_components 0xDEADBEEF).1 = 0xDEADBEEF >>> 22 ∧
    vpn_of 0xDEADBEEF =
      (extract_address_components 0xDEADBEEF).1 * 1024 +
        (extract_address_components 0xDEADBEEF).2.1 :=
  ⟨(address_decomposition 0xDEADBEEF (by decide)).1,
   (address_decomposition 0xDEADBEEF (by decide)).2.2.2.2.2.2.1⟩

/-! ## Clock replacement: scanning loops -/

theorem find_page_loop_spec (frames : Int → Frame) (page : Int) :
    ∀ (k : Nat) (i : Int), 0 ≤ i →
      (find_page_loop frames page k i = -1 ∧
        ∀ j, i ≤ j → j < i + k → (frames j).page_number ≠ page) ∨
      (i ≤ find_page_loop frames page k i ∧ find_page_loop frames page k i < i + k ∧
        (frames (find_page_loop frames page k i)).page_number = page ∧
        ∀ j, i ≤ j → j < find_page_loop frames page k i → (frames j).page_number ≠ page) := by
  intro k
  induction k with
  | zero =>
    intro i _
    left
    refine ⟨rfl, ?_⟩
    intro j h1 h2
    simp at h2
    omega
  | succ k ih =>
    intro i hi
    unfold find_page_loop
    by_cases h : (frames i).page_number = page
    · right
      rw [if_pos h]
      refine ⟨le_refl _, ?_, h, ?_⟩
      · push_cast; omega
      · intro j h1 h2; omega
    · rw [if_neg h]
      rcases ih (i + 1) (by omega) with ⟨h1, h2⟩ | ⟨h1, h2, h3, h4⟩
      · left
        refine ⟨h1, ?_⟩
        intro j hj1 hj2
        by_cases hje : j = i
        · rw [hje]; exact h
        · exact h2 j (by omega) (by push_cast at hj2; omega)
      · right
        refine ⟨by omega, by push_cast; omega, h3, ?_⟩
        intro j hj1 hj2
        by_cases hje : j = i
        · rw [hje]; exact h
        · exact h4 j (by omega) hj2

theorem find_empty_frame_loop_eq (frames : Int → Frame) :
    ∀ (k : Nat) (i : Int),
      find_empty_frame_loop frames k i = find_page_loop frames (-1) k i := by
  intro k
  induction k with
  | zero => intro i; rfl
  | succ k ih =>
    intro i
    unfold find_empty_frame_loop find_page_loop
    rw [ih]

theorem find_empty_frame_eq (clock : ClockPageReplacement) :
    find_empty_frame clock = find_page clock (-1) :=
  find_empty_frame_loop_eq clock.frames _ _

/-- What `find_page` returns: `-1` when no frame of the table holds the page,
otherwise the lowest index that does. -/
theorem find_page_spec (clock : ClockPageReplacement) (page : Int) :
    (find_page clock page = -1 ∧
      ∀ j, 0 ≤ j → j < clock.num_frames → (clock.frames j).page_number ≠ page) ∨
    (0 ≤ find_page clock page ∧ find_page clock page < clock.num_frames ∧
      (clock.frames (find_page clock page)).page_number = page ∧
      ∀ j, 0 ≤ j → j < find_page clock page → (clock.frames j).page_number ≠ page) := by
  unfold find_page
  rcases find_page_loop_spec clock.frames page clock.num_frames.toNat 0 (le_refl _) with
    ⟨h1, h2⟩ | ⟨h1, h2, h3, h4⟩
  · left
    refine ⟨h1, ?_⟩
    intro j hj1 hj2
    exact h2 j hj1 (by omega)
  · right
    exact ⟨h1, by omega, h3, h4⟩

theorem find_page_of_absent (clock : ClockPageReplacement) (page : Int)
    (h : ∀ j, 0 ≤ j → j < clock.num_frames → (clock.frames j).page_number ≠ page) :
    find_page clock page = -1 := by
  rcases find_page_spec clock page with ⟨h1, _⟩ | ⟨h1, h2, h3, _⟩
  · exact h1
  · exact absurd h3 (h _ h1 h2)

theorem find_page_of_resident (clock : ClockPageReplacement) (page : Int)
    (h : ∃ i, 0 ≤ i ∧ i < clock.num_frames ∧ (clock.frames i).page_number = page) :
    0 ≤ find_page clock page ∧ find_page clock page < clock.num_frames ∧
      (clock.frames (find_page clock page)).page_number = page ∧
      ∀ j, 0 ≤ j → j < find_page clock page → (clock.frames j).page_number ≠ page := by
  rcases find_page_spec clock page with ⟨_, h2⟩ | h1
  · obtain ⟨i, hi0, hin, hip⟩ := h
    exact absurd hip (h2 i hi0 hin)
  · exact h1

/-! ## Clock replacement: a hit -/

/-- Claim C4.  When the page is resident, `access_page` returns, leaves
`page_faults`, `page_replacements`, `disk_writes`, the clock hand and every
page number unchanged, sets the reference bit of the first frame holding the
page, sets its dirty bit on a write and keeps it on a read, and leaves every
other frame unchanged. -/
theorem hit_changes_no_counter (fuel : Nat) (clock : ClockPageReplacement)
    (page : Int) (is_write : Bool)
    (hres : ∃ i, 0 ≤ i ∧ i < clock.num_frames ∧ (clock.frames i).page_number = page) :
    ∃ f clock1,
      access_page fuel clock page is_write = some clock1 ∧
      0 ≤ f ∧ f < clock.num_frames ∧ (clock.frames f).page_number = page ∧
      (∀ j, 0 ≤ j → j < f → (clock.frames j).page_number ≠ page) ∧
      clock1.page_faults = clock.page_faults ∧
      clock1.page_replacements = clock.page_replacements ∧
      clock1.disk_writes = clock.disk_writes ∧
      clock1.clock_hand = clock.clock_hand ∧
      clock1.num_frames = clock.num_frames ∧
      (∀ i, (clock1.frames i).page_number = (clock.frames i).page_number) ∧
      (clock1.frames f).reference_bit = true ∧
      (clock1.frames f).dirty_bit =
        (if is_write then true else (clock.frames f).dirty_bit) ∧
      (∀ i, i ≠ f → clock1.frames i = clock.frames i) := by
  obtain ⟨h0, hn, hp, hfirst⟩ := find_page_of_resident clock page hres
  have hne : find_page clock page ≠ -1 := by omega
  have hacc : access_page fuel clock page is_write = some { clock with
      frames := Function.update clock.frames (find_page clock page)
        { clock.frames (find_page clock page) with
          reference_bit := true
          dirty_bit :=
            if is_write then true else (clock.frames (find_page clock page)).dirty_bit } } := by
    unfold access_page
    simp only [hne, ne_eq, not_false_eq_true, if_true]
  refine ⟨find_page clock page, _, hacc, h0, hn, hp, hfirst, rfl, rfl, rfl, rfl, rfl,
    ?_, ?_, ?_, ?_⟩
  · intro i
    by_cases hi : i = find_page clock page
    · subst hi; simp
    · simp [Function.update_noteq hi]
  · simp
  · simp
  · intro i hi
    simp [Function.update_noteq hi]

/-- Witness for C4: page 1 is written while it sits in frame 1 of the
three-frame table `example_frames`. -/
theorem hit_changes_no_counter_witness :
    ∃ f clock1,
      access_page 0 ⟨example_frames, 3, 0, 0, 0, 0⟩ 1 true = some clock1 ∧
      0 ≤ f ∧ f < 3 ∧ (example_frames f).page_number = 1 ∧
      (∀ j, 0 ≤ j → j < f → (example_frames j).page_number ≠ 1) ∧
      clock1.page_faults = 0 ∧
      clock1.page_replacements = 0 ∧
      clock1.disk_writes = 0 ∧
      clock1.clock_hand = 0 ∧
      clock1.num_frames = 3 ∧
      (∀ i, (clock1.frames i).page_number = (example_frames i).page_number) ∧
      (clock1.frames f).reference_bit = true ∧
      (clock1.frames f).dirty_bit =
        (if true = true then true else (example_frames f).dirty_bit) ∧
      (∀ i, i ≠ f → clock1.frames i = example_frames i) :=
  hit_changes_no_counter 0 ⟨example_frames, 3, 0, 0, 0, 0⟩ 1 true
    ⟨1, by decide, by decide, by decide⟩

/-! ## Clock replacement: the sweep of `find_victim` -/

theorem hand_succ (n h : Int) (h0 : 0 ≤ h) (h1 : h < n) :
    Int.tmod (h + 1) n = if h + 1 = n then 0 else h + 1 := by
  rw [Int.tmod_eq_emod (by omega) (by omega)]
  split_ifs with hc
  · rw [hc]; exact Int.emod_self
  · exact Int.emod_eq_of_lt (by omega) (by omega)

theorem cyclic_pos_eq (n h i : Int) (h0 : 0 ≤ h) (h1 : h < n) (i0 : 0 ≤ i) (i1 : i < n) :
    cyclic_pos n h i = if h ≤ i then i - h else i - h + n := by
  unfold cyclic_pos
  split_ifs with hc
  · exact Int.emod_eq_of_lt (by omega) (by omega)
  · rw [← Int.add_emod_self]
    exact Int.emod_eq_of_lt (by omega) (by omega)

theorem wrap_eq (n h k : Int) (h0 : 0 ≤ h) (h1 : h < n) (k0 : 0 ≤ k) (k1 : k ≤ n) :
    (h + k) % n = if h + k < n then h + k else h + k - n := by
  split_ifs with hc
  · exact Int.emod_eq_of_lt (by omega) hc
  · have : (h + k) % n = (h + k - n + n) % n := by congr 1; omega
    rw [this, Int.add_emod_self]
    exact Int.emod_eq_of_lt (by omega) (by omega)

theorem swept_zero (clock : ClockPageReplacement)
    (h0 : 0 ≤ clock.clock_hand) (h1 : clock.clock_hand < clock.num_frames) :
    swept clock 0 = clock := by
  cases clock with
  | mk frames n h pf pr dw =>
    simp only at h0 h1
    simp only [swept, add_zero, Int.emod_eq_of_lt h0 h1]
    congr 1
    funext i
    split_ifs with hc
    · obtain ⟨a, b, c⟩ := hc
      rw [cyclic_pos_eq n h i h0 h1 a b] at c
      split_ifs at c <;> omega
    · rfl

theorem clear_and_advance_swept (clock : ClockPageReplacement) (k : Nat)
    (h0 : 0 ≤ clock.clock_hand) (h1 : clock.clock_hand < clock.num_frames)
    (hk : (k : Int) < clock.num_frames) :
    clear_and_advance (swept clock k) = swept clock ((k : Int) + 1) := by
  cases clock with
  | mk frames n h pf pr dw =>
    simp only at h0 h1 hk
    have hw := wrap_eq n h k h0 h1 (by omega) (by omega)
    have hw1 := wrap_eq n h ((k : Int) + 1) h0 h1 (by omega) (by omega)
    simp only [clear_and_advance, swept]
    congr 1
    · funext i
      by_cases hi : i = (h + k) % n
      · rw [hi, Function.update_same]
        have hr0 : 0 ≤ (h + k) % n := by rw [hw]; split_ifs <;> omega
        have hr1 : (h + k) % n < n := by rw [hw]; split_ifs <;> omega
        have hc := cyclic_pos_eq n h ((h + k) % n) h0 h1 hr0 hr1
        have hlt : cyclic_pos n h ((h + k) % n) < (k : Int) + 1 := by
          rw [hc, hw]; split_ifs <;> omega
        have hnlt : ¬ cyclic_pos n h ((h + k) % n) < (k : Int) := by
          rw [hc, hw]; split_ifs <;> omega
        simp [hr0, hr1, hlt, hnlt]
      · rw [Function.update_noteq hi]
        by_cases hin : 0 ≤ i ∧ i < n
        · have hc := cyclic_pos_eq n h i h0 h1 hin.1 hin.2
          have hiff : cyclic_pos n h i < (k : Int) + 1 ↔ cyclic_pos n h i < (k : Int) := by
            rw [hw] at hi
            rw [hc]
            split_ifs at hi ⊢ <;> constructor <;> intro hx <;> omega
          simp only [hin.1, hin.2, true_and, hiff]
        · have hf1 : ¬ (0 ≤ i ∧ i < n ∧ cyclic_pos n h i < (k : Int) + 1) := by
            intro hx; exact hin ⟨hx.1, hx.2.1⟩
          have hf2 : ¬ (0 ≤ i ∧ i < n ∧ cyclic_pos n h i < (k : Int)) := by
            intro hx; exact hin ⟨hx.1, hx.2.1⟩
          rw [if_neg hf1, if_neg hf2]
    · have hr0 : 0 ≤ (h + k) % n := by rw [hw]; split_ifs <;> omega
      have hr1 : (h + k) % n < n := by rw [hw]; split_ifs <;> omega
      rw [hand_succ n _ hr0 hr1, ← add_assoc] at *
      rw [hw1, hw]
      split_ifs <;> omega

theorem wrap_range (n h k : Int) (h0 : 0 ≤ h) (h1 : h < n) (k0 : 0 ≤ k) (k1 : k < n) :
    0 ≤ (h + k) % n ∧ (h + k) % n < n ∧ cyclic_pos n h ((h + k) % n) = k := by
  have hw := wrap_eq n h k h0 h1 k0 (by omega)
  have hr0 : 0 ≤ (h + k) % n := by rw [hw]; split_ifs <;> omega
  have hr1 : (h + k) % n < n := by rw [hw]; split_ifs <;> omega
  refine ⟨hr0, hr1, ?_⟩
  rw [cyclic_pos_eq n h _ h0 h1 hr0 hr1, hw]
  split_ifs <;> omega

theorem wrap_cyclic_pos (n h i : Int) (h0 : 0 ≤ h) (h1 : h < n) (i0 : 0 ≤ i) (i1 : i < n) :
    0 ≤ cyclic_pos n h i ∧ cyclic_pos n h i < n ∧ (h + cyclic_pos n h i) % n = i := by
  have hc := cyclic_pos_eq n h i h0 h1 i0 i1
  have hc0 : 0 ≤ cyclic_pos n h i := by rw [hc]; split_ifs <;> omega
  have hc1 : cyclic_pos n h i < n := by rw [hc]; split_ifs <;> omega
  refine ⟨hc0, hc1, ?_⟩
  rw [wrap_eq n h _ h0 h1 hc0 (by omega), hc]
  split_ifs <;> omega

/-- While the first `k` frames of the cyclic order all have their reference bit
set, `k` iterations of the loop of `find_victim` lead to `swept clock k`. -/
theorem find_victim_sweep (clock : ClockPageReplacement)
    (h0 : 0 ≤ clock.clock_hand) (h1 : clock.clock_hand < clock.num_frames) :
    ∀ k : Nat, (k : Int) ≤ clock.num_frames →
      (∀ i, 0 ≤ i → i < clock.num_frames →
        cyclic_pos clock.num_frames clock.clock_hand i < k →
        (clock.frames i).reference_bit = true) →
      ∀ fuel, find_victim (fuel + k) clock = find_victim fuel (swept clock k) := by
  intro k
  induction k with
  | zero =>
    intro _ _ fuel
    simp [swept_zero clock h0 h1]
  | succ k ih =>
    intro hk hset fuel
    have hk1 : (k : Int) < clock.num_frames := by push_cast at hk; omega
    have hstep := ih (by omega)
      (fun i a b c => hset i a b (by push_cast; omega)) (fuel + 1)
    have hfuel : fuel + (k + 1) = fuel + 1 + k := by omega
    rw [hfuel, hstep]
    obtain ⟨r0, r1, rc⟩ :=
      wrap_range clock.num_frames clock.clock_hand k h0 h1 (by omega) hk1
    have hbit : ((swept clock k).frames (swept clock k).clock_hand).reference_bit = true := by
      have hnot : ¬ (0 ≤ (clock.clock_hand + k) % clock.num_frames ∧
          (clock.clock_hand + k) % clock.num_frames < clock.num_frames ∧
          cyclic_pos clock.num_frames clock.clock_hand
            ((clock.clock_hand + k) % clock.num_frames) < k) := by
        rw [rc]; omega
      simp only [swept, if_neg hnot]
      exact hset _ r0 r1 (by rw [rc]; push_cast; omega)
    have hcast : ((k + 1 : Nat) : Int) = (k : Int) + 1 := by push_cast; rfl
    rw [find_victim, hbit, hcast, ← clear_and_advance_swept clock k h0 h1 hk1]
    simp

/-- After a sweep over `k` set bits that ends on a clear bit, `find_victim`
returns the frame under the hand. -/
theorem find_victim_after_sweep (clock : ClockPageReplacement)
    (h0 : 0 ≤ clock.clock_hand) (h1 : clock.clock_hand < clock.num_frames)
    (k : Nat) (hk : (k : Int) ≤ clock.num_frames)
    (hset : ∀ i, 0 ≤ i → i < clock.num_frames →
      cyclic_pos clock.num_frames clock.clock_hand i < k →
      (clock.frames i).reference_bit = true)
    (hclear : ((swept clock k).frames (swept clock k).clock_hand).reference_bit = false)
    (fuel : Nat) (hfuel : k + 1 ≤ fuel) :
    find_victim fuel clock = some ((swept clock k).clock_hand,
      { swept clock k with
        clock_hand := Int.tmod ((swept clock k).clock_hand + 1) clock.num_frames }) := by
  have hf : fuel = (fuel - k - 1) + 1 + k := by omega
  rw [hf, find_victim_sweep clock h0 h1 k hk hset, find_victim, hclear]
  simp [swept]

/-- The run of `find_victim` on a table with at least one frame and the hand
inside it: for some `k ≤ num_frames` the first `k` frames of the cyclic order
from the hand all have their reference bit set, the frame after them (if
`k < num_frames`) has it clear, and `find_victim` sweeps over those `k` frames
and returns the frame it then finds under the hand. -/
theorem find_victim_result (clock : ClockPageReplacement) (fuel : Nat)
    (hn : 1 ≤ clock.num_frames)
    (h0 : 0 ≤ clock.clock_hand) (h1 : clock.clock_hand < clock.num_frames)
    (hfuel : clock.num_frames.toNat + 1 ≤ fuel) :
    ∃ k : Nat, (k : Int) ≤ clock.num_frames ∧
      (∀ i, 0 ≤ i → i < clock.num_frames →
        cyclic_pos clock.num_frames clock.clock_hand i < k →
        (clock.frames i).reference_bit = true) ∧
      ((k : Int) < clock.num_frames →
        (clock.frames ((clock.clock_hand + k) % clock.num_frames)).reference_bit = false) ∧
      find_victim fuel clock =
        some ((clock.clock_hand + k) % clock.num_frames,
          { swept clock k with
            clock_hand :=
              Int.tmod ((clock.clock_hand + k) % clock.num_frames + 1) clock.num_frames }) := by
  have hcastn : ((clock.num_frames.toNat : Nat) : Int) = clock.num_frames :=
    Int.toNat_of_nonneg (by omega)
  by_cases hall : ∀ i, 0 ≤ i → i < clock.num_frames → (clock.frames i).reference_bit = true
  · -- every bit is set: a full turn, then the frame under the hand
    have hhand : (swept clock (clock.num_frames.toNat : Nat)).clock_hand = clock.clock_hand := by
      simp only [swept, hcastn, Int.add_emod_self]
      exact Int.emod_eq_of_lt h0 h1
    have hpos := wrap_cyclic_pos clock.num_frames clock.clock_hand clock.clock_hand h0 h1 h0 h1
    have hclear : ((swept clock (clock.num_frames.toNat : Nat)).frames
        (swept clock (clock.num_frames.toNat : Nat)).clock_hand).reference_bit = false := by
      rw [hhand]
      simp only [swept, hcastn]
      rw [if_pos ⟨h0, h1, hpos.2.1⟩]
    refine ⟨clock.num_frames.toNat, by omega, fun i a b _ => hall i a b,
      fun hlt => absurd hlt (by omega), ?_⟩
    exact find_victim_after_sweep clock h0 h1 clock.num_frames.toNat (by omega)
      (fun i a b _ => hall i a b) hclear fuel hfuel
  · -- some bit is clear: stop at the first one in cyclic order
    classical
    have hex : ∃ k : Nat, ∃ i, 0 ≤ i ∧ i < clock.num_frames ∧
        cyclic_pos clock.num_frames clock.clock_hand i = k ∧
        (clock.frames i).reference_bit = false := by
      push_neg at hall
      obtain ⟨i, a, b, c⟩ := hall
      have hp := wrap_cyclic_pos clock.num_frames clock.clock_hand i h0 h1 a b
      refine ⟨(cyclic_pos clock.num_frames clock.clock_hand i).toNat, i, a, b, ?_, ?_⟩
      · exact (Int.toNat_of_nonneg hp.1).symm
      · simpa using c
    obtain ⟨v, v0, v1, vpos, vbit⟩ := Nat.find_spec hex
    have hmin := fun m (hm : m < Nat.find hex) => Nat.find_min hex hm
    have hvp := wrap_cyclic_pos clock.num_frames clock.clock_hand v h0 h1 v0 v1
    have hset : ∀ i, 0 ≤ i → i < clock.num_frames →
        cyclic_pos clock.num_frames clock.clock_hand i < (Nat.find hex : Nat) →
        (clock.frames i).reference_bit = true := by
      intro i a b c
      by_contra hb
      have hp := wrap_cyclic_pos clock.num_frames clock.clock_hand i h0 h1 a b
      apply hmin (cyclic_pos clock.num_frames clock.clock_hand i).toNat (by omega)
      exact ⟨i, a, b, (Int.toNat_of_nonneg hp.1).symm, by simpa using hb⟩
    have hhand : (clock.clock_hand + (Nat.find hex : Nat)) % clock.num_frames = v := by
      rw [← vpos]
      exact hvp.2.2
    have hclear : ((swept clock (Nat.find hex : Nat)).frames
        (swept clock (Nat.find hex : Nat)).clock_hand).reference_bit = false := by
      simp only [swept, hhand]
      rw [if_neg (by rw [vpos]; omega)]
      exact vbit
    refine ⟨Nat.find hex, by omega, hset, fun _ => by rw [hhand]; exact vbit, ?_⟩
    exact find_victim_after_sweep clock h0 h1 (Nat.find hex) (by omega)
      hset hclear fuel (by omega)

/-- What the callers of `find_victim` rely on: it returns a frame of the table,
keeps every page number and dirty bit, the table size and the counters, and
leaves the hand inside the table. -/
theorem find_victim_keeps (clock : ClockPageReplacement) (fuel : Nat)
    (hn : 1 ≤ clock.num_frames)
    (h0 : 0 ≤ clock.clock_hand) (h1 : clock.clock_hand < clock.num_frames)
    (hfuel : clock.num_frames.toNat + 1 ≤ fuel) :
    ∃ victim clock1,
      find_victim fuel clock = some (victim, clock1) ∧
      0 ≤ victim ∧ victim < clock.num_frames ∧
      (∀ i, (clock1.frames i).page_number = (clock.frames i).page_number ∧
        (clock1.frames i).dirty_bit = (clock.frames i).dirty_bit) ∧
      0 ≤ clock1.clock_hand ∧ clock1.clock_hand < clock.num_frames ∧
      clock1.num_frames = clock.num_frames ∧
      clock1.page_faults = clock.page_faults ∧
      clock1.page_replacements = clock.page_replacements ∧
      clock1.disk_writes = clock.disk_writes := by
  obtain ⟨k, hk, -, -, hres⟩ := find_victim_result clock fuel hn h0 h1 hfuel
  have hv0 : 0 ≤ (clock.clock_hand + k) % clock.num_frames :=
    Int.emod_nonneg _ (by omega)
  have hv1 : (clock.clock_hand + k) % clock.num_frames < clock.num_frames :=
    Int.emod_lt_of_pos _ (by omega)
  refine ⟨_, _, hres, hv0, hv1, ?_, ?_, ?_, rfl, rfl, rfl, rfl⟩
  · intro i
    simp only [swept]
    split_ifs <;> exact ⟨rfl, rfl⟩
  · simp only
    rw [Int.tmod_eq_emod (by omega) (by omega)]
    exact Int.emod_nonneg _ (by omega)
  · simp only
    rw [Int.tmod_eq_emod (by omega) (by omega)]
    exact Int.emod_lt_of_pos _ (by omega)

/-- Claim C2.  With at least one frame and the hand inside the table,
`find_victim` returns (given fuel for `num_frames + 1` iterations).  If some
reference bit is clear at the start, the victim is the first such frame in the
cyclic order from the hand and exactly the frames before it in that order get
their bit cleared; if every bit is set, all are cleared and the victim is the
frame under the hand.  A frame found with its bit set is passed over (bit
cleared, hand advanced) rather than chosen.  Page numbers, dirty bits and the
counters are unchanged and the hand ends at `(victim + 1) mod num_frames`. -/
theorem find_victim_second_chance (clock : ClockPageReplacement) (fuel : Nat)
    (hn : 1 ≤ clock.num_frames)
    (h0 : 0 ≤ clock.clock_hand) (h1 : clock.clock_hand < clock.num_frames)
    (hfuel : clock.num_frames.toNat + 1 ≤ fuel) :
    ∃ victim clock1,
      find_victim fuel clock = some (victim, clock1) ∧
      0 ≤ victim ∧ victim < clock.num_frames ∧
      ((∃ i, 0 ≤ i ∧ i < clock.num_frames ∧ (clock.frames i).reference_bit = false) →
        (clock.frames victim).reference_bit = false ∧
        (∀ i, 0 ≤ i → i < clock.num_frames →
          cyclic_pos clock.num_frames clock.clock_hand i <
            cyclic_pos clock.num_frames clock.clock_hand victim →
          (clock.frames i).reference_bit = true) ∧
        (∀ i, (clock1.frames i).reference_bit =
          if 0 ≤ i ∧ i < clock.num_frames ∧
              cyclic_pos clock.num_frames clock.clock_hand i <
                cyclic_pos clock.num_frames clock.clock_hand victim
          then false else (clock.frames i).reference_bit)) ∧
      ((∀ i, 0 ≤ i → i < clock.num_frames → (clock.frames i).reference_bit = true) →
        victim = clock.clock_hand ∧
        (∀ i, (clock1.frames i).reference_bit =
          if 0 ≤ i ∧ i < clock.num_frames then false
          else (clock.frames i).reference_bit)) ∧
      ((clock.frames clock.clock_hand).reference_bit = true →
        find_victim fuel clock = find_victim (fuel - 1) (clear_and_advance clock) ∧
        ((clear_and_advance clock).frames clock.clock_hand).reference_bit = false ∧
        (clear_and_advance clock).clock_hand =
          (clock.clock_hand + 1) % clock.num_frames) ∧
      (∀ i, (clock1.frames i).page_number = (clock.frames i).page_number ∧
        (clock1.frames i).dirty_bit = (clock.frames i).dirty_bit) ∧
      clock1.clock_hand = (victim + 1) % clock.num_frames ∧
      clock1.num_frames = clock.num_frames ∧
      clock1.page_faults = clock.page_faults ∧
      clock1.page_replacements = clock.page_replacements ∧
      clock1.disk_writes = clock.disk_writes := by
  have hvisit : (clock.frames clock.clock_hand).reference_bit = true →
      find_victim fuel clock = find_victim (fuel - 1) (clear_and_advance clock) ∧
      ((clear_and_advance clock).frames clock.clock_hand).reference_bit = false ∧
      (clear_and_advance clock).clock_hand =
        (clock.clock_hand + 1) % clock.num_frames := by
    intro hb
    refine ⟨?_, ?_, ?_⟩
    · have hf : fuel = (fuel - 1) + 1 := by omega
      rw [hf, find_victim, hb]
      simp
    · simp [clear_and_advance]
    · simp only [clear_and_advance]
      exact Int.tmod_eq_emod (by omega) (by omega)
  obtain ⟨k, hk, hset, hstop, hres⟩ := find_victim_result clock fuel hn h0 h1 hfuel
  have hv0 : 0 ≤ (clock.clock_hand + k) % clock.num_frames :=
    Int.emod_nonneg _ (by omega)
  have hv1 : (clock.clock_hand + k) % clock.num_frames < clock.num_frames :=
    Int.emod_lt_of_pos _ (by omega)
  refine ⟨_, _, hres, hv0, hv1, ?_, ?_, hvisit, ?_, ?_, rfl, rfl, rfl, rfl⟩
  · -- some bit is clear, so the sweep stopped before a full turn
    rintro ⟨i, i0, i1, hi⟩
    have hp := wrap_cyclic_pos clock.num_frames clock.clock_hand i h0 h1 i0 i1
    have hklt : (k : Int) < clock.num_frames := by
      by_contra hge
      rw [hset i i0 i1 (by omega)] at hi
      exact absurd hi (by simp)
    have hvpos := (wrap_range clock.num_frames clock.clock_hand k h0 h1 (by omega) hklt).2.2
    refine ⟨hstop hklt, ?_, ?_⟩
    · intro j j0 j1 hj
      exact hset j j0 j1 (by rw [← hvpos]; exact hj)
    · intro j
      simp only [swept, hvpos]
      split_ifs <;> rfl
  · -- every bit is set, so the sweep made a full turn
    intro hall
    have hkn : (k : Int) = clock.num_frames := by
      by_contra hne
      have hklt : (k : Int) < clock.num_frames := by omega
      have := hstop hklt
      rw [hall _ hv0 hv1] at this
      exact absurd this (by simp)
    have hvh : (clock.clock_hand + k) % clock.num_frames = clock.clock_hand := by
      rw [hkn, Int.add_emod_self]
      exact Int.emod_eq_of_lt h0 h1
    refine ⟨hvh, ?_⟩
    intro j
    simp only [swept, hkn]
    by_cases hin : 0 ≤ j ∧ j < clock.num_frames
    · have hp := wrap_cyclic_pos clock.num_frames clock.clock_hand j h0 h1 hin.1 hin.2
      rw [if_pos ⟨hin.1, hin.2, hp.2.1⟩, if_pos hin]
    · have hf : ¬ (0 ≤ j ∧ j < clock.num_frames ∧
          cyclic_pos clock.num_frames clock.clock_hand j < clock.num_frames) :=
        fun hx => hin ⟨hx.1, hx.2.1⟩
      rw [if_neg hf, if_neg hin]
  · intro i
    simp only [swept]
    split_ifs <;> exact ⟨rfl, rfl⟩
  · exact Int.tmod_eq_emod (by omega) (by omega)

/-- Witness for C2: three frames with reference bits set, set, clear and the
hand on frame 1. -/
theorem find_victim_second_chance_witness :
    ∃ victim clock1,
      find_victim 4 ⟨example_frames, 3, 1, 0, 0, 0⟩ = some (victim, clock1) ∧
      0 ≤ victim ∧ victim < 3 ∧ clock1.clock_hand = (victim + 1) % 3 := by
  obtain ⟨victim, clock1, hres, hv0, hv1, -, -, -, -, hhand, -⟩ :=
    find_victim_second_chance ⟨example_frames, 3, 1, 0, 0, 0⟩ 4
      (by decide) (by decide) (by decide) (by decide)
  exact ⟨victim, clock1, hres, hv0, hv1, hhand⟩

/-! ## Clock replacement: a fault -/

theorem access_page_hit (fuel : Nat) (clock : ClockPageReplacement) (page : Int)
    (is_write : Bool) (h : find_page clock page ≠ -1) :
    access_page fuel clock page is_write = some { clock with
      frames := Function.update clock.frames (find_page clock page)
        { clock.frames (find_page clock page) with
          reference_bit := true
          dirty_bit :=
            if is_write then true else (clock.frames (find_page clock page)).dirty_bit } } := by
  unfold access_page
  simp only [h, ne_eq, not_false_eq_true, if_true]

theorem access_page_fill (fuel : Nat) (clock : ClockPageReplacement) (page : Int)
    (is_write : Bool) (h : find_page clock page = -1) (he : find_empty_frame clock ≠ -1) :
    access_page fuel clock page is_write =
      some (load_page { clock with page_faults := clock.page_faults + 1 }
        (find_empty_frame clock) page is_write) := by
  have he1 : find_empty_frame { clock with page_faults := clock.page_faults + 1 } =
      find_empty_frame clock := rfl
  unfold access_page
  simp only [h, ne_eq, not_true_eq_false, if_false, he1, he]

theorem access_page_evict (fuel : Nat) (clock : ClockPageReplacement) (page : Int)
    (is_write : Bool) (h : find_page clock page = -1) (he : find_empty_frame clock = -1)
    (victim : Int) (clock1 : ClockPageReplacement)
    (hv : find_victim fuel { clock with page_faults := clock.page_faults + 1 } =
      some (victim, clock1)) :
    access_page fuel clock page is_write =
      some (load_page (count_replacement clock1 victim) victim page is_write) := by
  have he1 : find_empty_frame { clock with page_faults := clock.page_faults + 1 } =
      find_empty_frame clock := rfl
  unfold access_page
  simp only [h, ne_eq, not_true_eq_false, if_false, he1, he, if_true, hv]

/-- Claim C5.  For a page that is not resident: when no frame is empty (and the
table has a frame and the hand is inside it), `access_page` returns,
`page_faults` and `page_replacements` grow by one and `disk_writes` grows by
one exactly when the frame chosen by `find_victim` was dirty before the call;
when some frame is empty, `page_faults` grows by one and `page_replacements`
and `disk_writes` are unchanged. -/
theorem disk_write_accounting (clock : ClockPageReplacement) (page : Int)
    (is_write : Bool) (fuel : Nat)
    (habsent : ∀ j, 0 ≤ j → j < clock.num_frames → (clock.frames j).page_number ≠ page) :
    ((1 ≤ clock.num_frames ∧ 0 ≤ clock.clock_hand ∧ clock.clock_hand < clock.num_frames ∧
        clock.num_frames.toNat + 1 ≤ fuel ∧
        (∀ j, 0 ≤ j → j < clock.num_frames → (clock.frames j).page_number ≠ -1)) →
      ∃ victim clock1 clock2,
        find_victim fuel { clock with page_faults := clock.page_faults + 1 } =
          some (victim, clock1) ∧
        access_page fuel clock page is_write = some clock2 ∧
        0 ≤ victim ∧ victim < clock.num_frames ∧
        clock2.page_faults = clock.page_faults + 1 ∧
        clock2.page_replacements = clock.page_replacements + 1 ∧
        clock2.disk_writes =
          clock.disk_writes + (if (clock.frames victim).dirty_bit then 1 else 0) ∧
        clock2.frames victim = ⟨page, true, is_write⟩) ∧
    ((∃ j, 0 ≤ j ∧ j < clock.num_frames ∧ (clock.frames j).page_number = -1) →
      ∃ clock2,
        access_page fuel clock page is_write = some clock2 ∧
        clock2.page_faults = clock.page_faults + 1 ∧
        clock2.page_replacements = clock.page_replacements ∧
        clock2.disk_writes = clock.disk_writes ∧
        clock2.frames (find_empty_frame clock) = ⟨page, true, is_write⟩) := by
  have hmiss : find_page clock page = -1 := find_page_of_absent clock page habsent
  constructor
  · rintro ⟨hn, h0, h1, hfuel, hfull⟩
    have hnoempty : find_empty_frame clock = -1 := by
      rw [find_empty_frame_eq]
      exact find_page_of_absent _ _ hfull
    obtain ⟨victim, clock1, hres, hv0, hv1, hkeep, -, -, -, hpf, hpr, hdw⟩ :=
      find_victim_keeps { clock with page_faults := clock.page_faults + 1 } fuel
        hn h0 h1 hfuel
    refine ⟨victim, clock1, _, hres,
      access_page_evict fuel clock page is_write hmiss hnoempty victim clock1 hres,
      hv0, hv1, ?_, ?_, ?_, ?_⟩
    · simp [load_page, count_replacement, hpf]
    · simp [load_page, count_replacement, hpr]
    · simp only [load_page, count_replacement, hdw, (hkeep victim).2]
      split_ifs <;> simp
    · simp [load_page]
  · intro hempty
    have hfound := find_page_of_resident clock (-1) hempty
    have hne : find_empty_frame clock ≠ -1 := by
      rw [find_empty_frame_eq]
      omega
    refine ⟨_, access_page_fill fuel clock page is_write hmiss hne, ?_, ?_, ?_, ?_⟩
    · simp [load_page]
    · simp [load_page]
    · simp [load_page]
    · simp only [load_page]
      exact Function.update_same _ _ _

/-- Witness for C5: page 9 is not among the pages of `example_frames`. -/
theorem disk_write_accounting_witness :
    ∃ victim clock1 clock2,
      find_victim 4 ⟨example_frames, 3, 1, 1, 0, 0⟩ = some (victim, clock1) ∧
      access_page 4 ⟨example_frames, 3, 1, 0, 0, 0⟩ 9 false = some clock2 ∧
      clock2.page_faults = 1 ∧ clock2.page_replacements = 1 ∧
      clock2.disk_writes = 0 + (if (example_frames victim).dirty_bit then 1 else 0) := by
  obtain ⟨victim, clock1, clock2, h1, h2, -, -, h3, h4, h5, -⟩ :=
    (disk_write_accounting ⟨example_frames, 3, 1, 0, 0, 0⟩ 9 false 4
      (by decide)).1 ⟨by decide, by decide, by decide, by decide, by decide⟩
  exact ⟨victim, clock1, clock2, h1, h2, h3, h4, h5⟩

/-! ## Clock replacement: initialisation -/

theorem init_clock_loop_apply :
    ∀ (k : Nat) (i : Int) (frames : Int → Frame) (j : Int),
      init_clock_loop k i frames j =
        if i ≤ j ∧ j < i + k then ⟨-1, false, false⟩ else frames j := by
  intro k
  induction k with
  | zero =>
    intro i frames j
    have : ¬ (i ≤ j ∧ j < i + ((0 : Nat) : Int)) := by push_cast; omega
    rw [if_neg this]
    rfl
  | succ k ih =>
    intro i frames j
    rw [init_clock_loop, ih]
    by_cases hj : j = i
    · subst hj
      have h1 : ¬ (j + 1 ≤ j ∧ j < j + 1 + (k : Int)) := by omega
      have h2 : j ≤ j ∧ j < j + ((k + 1 : Nat) : Int) := by push_cast; omega
      rw [if_neg h1, if_pos h2, Function.update_same]
    · rw [Function.update_noteq hj]
      by_cases h : i ≤ j ∧ j < i + ((k + 1 : Nat) : Int)
      · have h1 : i + 1 ≤ j ∧ j < i + 1 + (k : Int) := by push_cast at h; omega
        rw [if_pos h, if_pos h1]
      · have h1 : ¬ (i + 1 ≤ j ∧ j < i + 1 + (k : Int)) := by push_cast at h; omega
        rw [if_neg h, if_neg h1]

theorem init_clock_frames (num_frames : Int) (uninit : Int → Frame) (j : Int) :
    (init_clock num_frames uninit).frames j =
      if 0 ≤ j ∧ j < num_frames then ⟨-1, false, false⟩ else uninit j := by
  simp only [init_clock, init_clock_loop_apply]
  by_cases h : 0 ≤ j ∧ j < num_frames
  · rw [if_pos h, if_pos ⟨h.1, by omega⟩]
  · rw [if_neg h, if_neg (by omega)]

/-! ## Clock replacement: effect of one access on the page numbers -/

/-- With at least one frame and the hand inside the table, `access_page`
returns; the table size is kept, the hand stays inside the table, and the page
numbers are either all unchanged or changed in exactly one frame, which
receives the accessed page, that page having been absent from the table. -/
theorem access_page_effect (fuel : Nat) (clock : ClockPageReplacement) (page : Int)
    (is_write : Bool) (hn : 1 ≤ clock.num_frames)
    (h0 : 0 ≤ clock.clock_hand) (h1 : clock.clock_hand < clock.num_frames)
    (hfuel : clock.num_frames.toNat + 1 ≤ fuel) :
    ∃ clock1,
      access_page fuel clock page is_write = some clock1 ∧
      clock1.num_frames = clock.num_frames ∧
      0 ≤ clock1.clock_hand ∧ clock1.clock_hand < clock.num_frames ∧
      ((∀ i, (clock1.frames i).page_number = (clock.frames i).page_number) ∨
        (∃ r, 0 ≤ r ∧ r < clock.num_frames ∧
          (∀ j, 0 ≤ j → j < clock.num_frames → (clock.frames j).page_number ≠ page) ∧
          ∀ i, (clock1.frames i).page_number =
            if i = r then page else (clock.frames i).page_number)) := by
  rcases find_page_spec clock page with ⟨hmiss, habsent⟩ | ⟨hf0, hf1, _, _⟩
  · rcases find_page_spec clock (-1) with ⟨hnone, hfull⟩ | ⟨he0, he1, _, _⟩
    · rw [← find_empty_frame_eq] at hnone
      obtain ⟨victim, clock1, hres, hv0, hv1, hkeep, g0, g1, hnum, -, -, -⟩ :=
        find_victim_keeps { clock with page_faults := clock.page_faults + 1 } fuel
          hn h0 h1 hfuel
      refine ⟨_, access_page_evict fuel clock page is_write hmiss hnone victim clock1 hres,
        ?_, g0, g1, Or.inr ⟨victim, hv0, hv1, habsent, ?_⟩⟩
      · simpa [load_page, count_replacement] using hnum
      · intro i
        simp only [load_page, count_replacement]
        by_cases hi : i = victim
        · rw [if_pos hi, hi, Function.update_same]
        · rw [if_neg hi, Function.update_noteq hi]
          exact (hkeep i).1
    · rw [← find_empty_frame_eq] at he0 he1
      have hne : find_empty_frame clock ≠ -1 := by omega
      refine ⟨_, access_page_fill fuel clock page is_write hmiss hne, rfl, h0, h1,
        Or.inr ⟨find_empty_frame clock, he0, he1, habsent, ?_⟩⟩
      intro i
      simp only [load_page]
      by_cases hi : i = find_empty_frame clock
      · rw [if_pos hi, hi, Function.update_same]
      · rw [if_neg hi, Function.update_noteq hi]
  · have hne : find_page clock page ≠ -1 := by omega
    refine ⟨_, access_page_hit fuel clock page is_write hne, rfl, h0, h1, Or.inl ?_⟩
    intro i
    by_cases hi : i = find_page clock page
    · subst hi; simp
    · simp [Function.update_noteq hi]

/-! ## Clock replacement: no page is resident twice -/

theorem run_accesses_unique (fuel : Nat) :
    ∀ (events : List (Int × Bool)) (clock : ClockPageReplacement),
      1 ≤ clock.num_frames → 0 ≤ clock.clock_hand → clock.clock_hand < clock.num_frames →
      clock.num_frames.toNat + 1 ≤ fuel →
      (∀ p, p ≠ -1 → ∀ i j, 0 ≤ i → i < clock.num_frames → 0 ≤ j → j < clock.num_frames →
        (clock.frames i).page_number = p → (clock.frames j).page_number = p → i = j) →
      ∃ clock1, run_accesses fuel clock events = some clock1 ∧
        clock1.num_frames = clock.num_frames ∧
        (∀ p, p ≠ -1 → ∀ i j, 0 ≤ i → i < clock.num_frames → 0 ≤ j → j < clock.num_frames →
          (clock1.frames i).page_number = p → (clock1.frames j).page_number = p → i = j) := by
  intro events
  induction events with
  | nil =>
    intro clock _ _ _ _ huniq
    exact ⟨clock, rfl, rfl, huniq⟩
  | cons e rest ih =>
    intro clock hn h0 h1 hfuel huniq
    obtain ⟨page, is_write⟩ := e
    obtain ⟨clock1, hres, hnum, g0, g1, hpages⟩ :=
      access_page_effect fuel clock page is_write hn h0 h1 hfuel
    have huniq1 : ∀ p, p ≠ -1 → ∀ i j, 0 ≤ i → i < clock1.num_frames → 0 ≤ j →
        j < clock1.num_frames → (clock1.frames i).page_number = p →
        (clock1.frames j).page_number = p → i = j := by
      rw [hnum]
      intro p hp i j i0 i1 j0 j1 hi hj
      rcases hpages with hsame | ⟨r, _, _, habsent, hnew⟩
      · rw [hsame] at hi hj
        exact huniq p hp i j i0 i1 j0 j1 hi hj
      · rw [hnew] at hi hj
        by_cases hir : i = r
        · by_cases hjr : j = r
          · rw [hir, hjr]
          · rw [if_pos hir] at hi
            rw [if_neg hjr, ← hi] at hj
            exact absurd hj (habsent j j0 j1)
        · by_cases hjr : j = r
          · rw [if_pos hjr] at hj
            rw [if_neg hir, ← hj] at hi
            exact absurd hi (habsent i i0 i1)
          · rw [if_neg hir] at hi
            rw [if_neg hjr] at hj
            exact huniq p hp i j i0 i1 j0 j1 hi hj
    obtain ⟨clock2, hrun, hnum2, huniq2⟩ :=
      ih clock1 (by omega) g0 (by omega) (by rw [hnum]; exact hfuel) huniq1
    refine ⟨clock2, ?_, by omega, ?_⟩
    · simp only [run_accesses, hres, hrun]
    · rw [← hnum]
      exact huniq2

/-- Claim C10.  From `init_clock n` with `1 ≤ n ≤ 100`, every sequence of
`access_page` calls runs to the end, and in the state reached no page
identifier `p ≥ 0` is held by two frames of the table. -/
theorem frame_table_uniqueness (n : Int) (uninit : Int → Frame)
    (events : List (Int × Bool)) (fuel : Nat)
    (hn : 1 ≤ n ∧ n ≤ MAX_FRAMES) (hfuel : n.toNat + 1 ≤ fuel) :
    ∃ clock, run_accesses fuel (init_clock n uninit) events = some clock ∧
      clock.num_frames = n ∧
      ∀ p, 0 ≤ p → ∀ i j, 0 ≤ i → i < n → 0 ≤ j → j < n →
        (clock.frames i).page_number = p → (clock.frames j).page_number = p → i = j := by
  obtain ⟨clock, hrun, hnum, huniq⟩ :=
    run_accesses_unique fuel events (init_clock n uninit) hn.1 (le_refl _)
      (by simp only [init_clock]; omega) hfuel
      (by
        intro p hp i j i0 i1 _ _ hi _
        rw [init_clock_frames, if_pos ⟨i0, i1⟩] at hi
        exact absurd hi.symm hp)
  exact ⟨clock, hrun, hnum, fun p hp => huniq p (by omega)⟩

/-- Witness for C10: two frames, pages 1, 2, 1, 3 in turn. -/
theorem frame_table_uniqueness_witness :
    ∃ clock, run_accesses 3 (init_clock 2 stale_frames)
        [(1, false), (2, true), (1, false), (3, false)] = some clock ∧
      clock.num_frames = 2 ∧
      ∀ p, 0 ≤ p → ∀ i j, 0 ≤ i → i < 2 → 0 ≤ j → j < 2 →
        (clock.frames i).page_number = p → (clock.frames j).page_number = p → i = j :=
  frame_table_uniqueness 2 stale_frames [(1, false), (2, true), (1, false), (3, false)] 3
    ⟨by decide, by decide⟩ (by decide)

/-! ## Clock replacement: filling an empty table -/

/-- Filling step by step: if the frames `0 .. pre.length - 1` hold the pages of
`pre` in order and the remaining frames are empty, then running the accesses
`rest` (new, distinct, non-negative pages that still fit) extends this to
`pre ++ rest`. -/
theorem run_accesses_fill (fuel : Nat) (N : Int) :
    ∀ (rest pre : List (Int × Bool)) (clock : ClockPageReplacement),
      clock.num_frames = N → clock.clock_hand = 0 →
      clock.page_faults = pre.length → clock.page_replacements = 0 →
      clock.disk_writes = 0 →
      (∀ (i : Nat) (e : Int × Bool), pre[i]? = some e →
        clock.frames i = ⟨e.1, true, e.2⟩) →
      (∀ j : Int, (pre.length : Int) ≤ j → j < N → (clock.frames j).page_number = -1) →
      ((pre ++ rest).length : Int) ≤ N →
      ((pre ++ rest).map Prod.fst).Nodup →
      (∀ e ∈ pre ++ rest, 0 ≤ e.1) →
      ∃ clock1, run_accesses fuel clock rest = some clock1 ∧
        clock1.num_frames = N ∧ clock1.clock_hand = 0 ∧
        clock1.page_faults = (pre ++ rest).length ∧ clock1.page_replacements = 0 ∧
        clock1.disk_writes = 0 ∧
        (∀ (i : Nat) (e : Int × Bool), (pre ++ rest)[i]? = some e →
          clock1.frames i = ⟨e.1, true, e.2⟩) ∧
        (∀ j : Int, ((pre ++ rest).length : Int) ≤ j → j < N →
          (clock1.frames j).page_number = -1) := by
  intro rest
  induction rest with
  | nil =>
    intro pre clock hnum hhand hpf hpr hdw hfilled hempty _ _ _
    refine ⟨clock, rfl, hnum, hhand, ?_, hpr, hdw, ?_, ?_⟩
    · simpa using hpf
    · simpa using hfilled
    · simpa using hempty
  | cons e rest ih =>
    intro pre clock hnum hhand hpf hpr hdw hfilled hempty hlen hdist hnonneg
    have hsplit : pre ++ e :: rest = (pre ++ [e]) ++ rest := by simp
    have hlen1 : (pre.length : Int) < N := by
      simp only [List.length_append, List.length_cons] at hlen
      push_cast at hlen
      omega
    -- the pages already loaded are non-negative and differ from the new one
    have hloaded : ∀ j : Int, 0 ≤ j → j < pre.length →
        0 ≤ (clock.frames j).page_number ∧ (clock.frames j).page_number ≠ e.1 := by
      intro j j0 j1
      have hj : j.toNat < pre.length := by omega
      have hget : pre[j.toNat]? = some (pre[j.toNat]) := List.getElem?_eq_getElem hj
      have hfr := hfilled j.toNat _ hget
      rw [Int.toNat_of_nonneg j0] at hfr
      have hmem : pre[j.toNat] ∈ pre := List.getElem?_mem hget
      rw [hfr]
      refine ⟨hnonneg _ (List.mem_append_left _ hmem), ?_⟩
      intro heq
      rw [List.map_append, List.nodup_append] at hdist
      exact hdist.2.2 (List.mem_map_of_mem Prod.fst hmem)
        (by rw [show (pre[j.toNat]).1 = e.1 from heq]; simp)
    have he0 : 0 ≤ e.1 := hnonneg e (by simp)
    have habsent : ∀ j, 0 ≤ j → j < clock.num_frames →
        (clock.frames j).page_number ≠ e.1 := by
      intro j j0 j1
      by_cases hj : j < pre.length
      · exact (hloaded j j0 hj).2
      · rw [hempty j (by omega) (by omega)]
        omega
    have hmiss := find_page_of_absent clock e.1 habsent
    have hslot : find_empty_frame clock = pre.length := by
      rw [find_empty_frame_eq]
      obtain ⟨r0, r1, r2, r3⟩ := find_page_of_resident clock (-1)
        ⟨pre.length, by omega, by omega, hempty _ (le_refl _) hlen1⟩
      by_contra hne
      rcases lt_or_gt_of_ne hne with hlt | hgt
      · have := (hloaded _ r0 hlt).1
        omega
      · exact r3 pre.length (by omega) hgt (hempty _ (le_refl _) hlen1)
    have hres := access_page_fill fuel clock e.1 e.2 hmiss (by rw [hslot]; omega)
    rw [hslot] at hres
    obtain ⟨clock1, hrun, g1, g2, g3, g4, g5, g6, g7⟩ :=
      ih (pre ++ [e])
        (load_page { clock with page_faults := clock.page_faults + 1 } pre.length e.1 e.2)
        hnum hhand
        (by simp only [load_page, hpf, List.length_append, List.length_singleton]
            push_cast; rfl)
        hpr hdw
        (by
          intro i x hx
          simp only [load_page]
          by_cases hi : i < pre.length
          · rw [List.getElem?_append_left hi] at hx
            rw [Function.update_noteq (by omega)]
            exact hfilled i x hx
          · have hi1 : i = pre.length := by
              have := (List.getElem?_eq_some.mp hx).1
              simp only [List.length_append, List.length_singleton] at this
              omega
            subst hi1
            rw [List.getElem?_append_right (le_refl _)] at hx
            simp only [Nat.sub_self, List.getElem?_cons_zero, Option.some.injEq] at hx
            rw [Function.update_same, ← hx])
        (by
          intro j j0 j1
          simp only [List.length_append, List.length_singleton] at j0
          push_cast at j0
          simp only [load_page]
          rw [Function.update_noteq (by omega)]
          exact hempty j (by omega) j1)
        (by rw [← hsplit]; exact hlen)
        (by rw [← hsplit]; exact hdist)
        (by rw [← hsplit]; exact hnonneg)
    rw [← hsplit] at g3 g6 g7
    refine ⟨clock1, ?_, g1, g2, g3, g4, g5, g6, g7⟩
    obtain ⟨page, is_write⟩ := e
    simp only [run_accesses, hres, hrun]

/-- Claim C3.  From `init_clock N` with `1 ≤ N ≤ 100`, accessing `N` pairwise
distinct non-negative pages in order (any read/write flags) runs to the end
with `page_faults = N`, `page_replacements = 0`, `disk_writes = 0`, the hand
still at 0, and frame `i` holding the `i`-th page. -/
theorem cold_start_fill (N : Int) (uninit : Int → Frame) (events : List (Int × Bool))
    (fuel : Nat) (_hN : 1 ≤ N ∧ N ≤ MAX_FRAMES) (hlen : (events.length : Int) = N)
    (hdist : (events.map Prod.fst).Nodup) (hnonneg : ∀ e ∈ events, 0 ≤ e.1) :
    ∃ clock, run_accesses fuel (init_clock N uninit) events = some clock ∧
      clock.page_faults = N ∧ clock.page_replacements = 0 ∧ clock.disk_writes = 0 ∧
      clock.clock_hand = 0 ∧ clock.num_frames = N ∧
      ∀ (i : Nat) (e : Int × Bool), events[i]? = some e →
        clock.frames i = ⟨e.1, true, e.2⟩ := by
  obtain ⟨clock, hrun, g1, g2, g3, g4, g5, g6, -⟩ :=
    run_accesses_fill fuel N events [] (init_clock N uninit) rfl rfl rfl rfl rfl
      (by intro i e h; simp at h)
      (by
        intro j j0 j1
        rw [init_clock_frames, if_pos ⟨by simpa using j0, j1⟩])
      (by simp only [List.nil_append]; omega)
      (by simpa using hdist)
      (by simpa using hnonneg)
  simp only [List.nil_append] at g3 g6
  exact ⟨clock, hrun, by rw [g3, hlen], g4, g5, g2, g1, g6⟩

/-- Witness for C3: three frames, pages 5, 0, 9 with a write in the middle. -/
theorem cold_start_fill_witness :
    ∃ clock, run_accesses 0 (init_clock 3 stale_frames)
        [(5, false), (0, true), (9, false)] = some clock ∧
      clock.page_faults = 3 ∧ clock.page_replacements = 0 ∧ clock.disk_writes = 0 ∧
      clock.clock_hand = 0 ∧ clock.num_frames = 3 ∧
      ∀ (i : Nat) (e : Int × Bool), [((5 : Int), false), (0, true), (9, false)][i]? = some e →
        clock.frames i = ⟨e.1, true, e.2⟩ :=
  cold_start_fill 3 stale_frames [(5, false), (0, true), (9, false)] 0
    ⟨by decide, by decide⟩ (by decide) (by decide) (by decide)

/-! ## The TLB: replacement policy -/

theorem find_invalid_loop_spec (tlb : Int → TLBEntry) :
    ∀ (k : Nat) (i : Int), 0 ≤ i →
      (find_invalid_loop tlb k i = -1 ∧
        ∀ j, i ≤ j → j < i + k → (tlb j).valid = true) ∨
      (i ≤ find_invalid_loop tlb k i ∧ find_invalid_loop tlb k i < i + k ∧
        (tlb (find_invalid_loop tlb k i)).valid = false ∧
        ∀ j, i ≤ j → j < find_invalid_loop tlb k i → (tlb j).valid = true) := by
  intro k
  induction k with
  | zero =>
    intro i _
    left
    refine ⟨rfl, ?_⟩
    intro j h1 h2
    simp at h2
    omega
  | succ k ih =>
    intro i hi
    unfold find_invalid_loop
    by_cases h : (tlb i).valid = true
    · simp only [h, Bool.not_true, Bool.false_eq_true, if_false]
      rcases ih (i + 1) (by omega) with ⟨h1, h2⟩ | ⟨h1, h2, h3, h4⟩
      · left
        refine ⟨h1, ?_⟩
        intro j hj1 hj2
        by_cases hje : j = i
        · rw [hje]; exact h
        · exact h2 j (by omega) (by push_cast at hj2; omega)
      · right
        refine ⟨by omega, by push_cast; omega, h3, ?_⟩
        intro j hj1 hj2
        by_cases hje : j = i
        · rw [hje]; exact h
        · exact h4 j (by omega) hj2
    · have hf : (tlb i).valid = false := by simpa using h
      have hc : (!(tlb i).valid) = true := by simp [hf]
      right
      rw [if_pos hc]
      refine ⟨le_refl _, by push_cast; omega, hf, ?_⟩
      intro j h1 h2
      omega

/-- The LRU scan ends on the first index that carries the smallest
`access_time` of the entries scanned. -/
theorem lru_loop_spec (tlb : Int → TLBEntry) :
    ∀ (k : Nat) (i : Int) (oldest_time : Nat) (r : Int),
      0 ≤ r → r < i → (tlb r).access_time = oldest_time →
      (∀ j, 0 ≤ j → j < i → oldest_time ≤ (tlb j).access_time) →
      (∀ j, 0 ≤ j → j < r → oldest_time < (tlb j).access_time) →
      0 ≤ lru_loop tlb k i oldest_time r ∧ lru_loop tlb k i oldest_time r < i + k ∧
      (∀ j, 0 ≤ j → j < i + k →
        (tlb (lru_loop tlb k i oldest_time r)).access_time ≤ (tlb j).access_time) ∧
      (∀ j, 0 ≤ j → j < lru_loop tlb k i oldest_time r →
        (tlb (lru_loop tlb k i oldest_time r)).access_time < (tlb j).access_time) := by
  intro k
  induction k with
  | zero =>
    intro i oldest_time r r0 r1 hr hmin hfirst
    simp only [lru_loop, Nat.cast_zero, add_zero, hr]
    exact ⟨r0, r1, hmin, hfirst⟩
  | succ k ih =>
    intro i oldest_time r r0 r1 hr hmin hfirst
    unfold lru_loop
    by_cases h : (tlb i).access_time < oldest_time
    · rw [if_pos h]
      have := ih (i + 1) (tlb i).access_time i (by omega) (by omega) rfl
        (by
          intro j j0 j1
          by_cases hj : j = i
          · rw [hj]
          · exact le_trans (le_of_lt h) (hmin j j0 (by omega)))
        (by
          intro j j0 j1
          exact lt_of_lt_of_le h (hmin j j0 j1))
      refine ⟨this.1, by push_cast; omega, ?_, this.2.2.2⟩
      intro j j0 j1
      exact this.2.2.1 j j0 (by push_cast at j1; omega)
    · rw [if_neg h]
      have := ih (i + 1) oldest_time r r0 (by omega) hr
        (by
          intro j j0 j1
          by_cases hj : j = i
          · rw [hj]; omega
          · exact hmin j j0 (by omega))
        hfirst
      refine ⟨this.1, by push_cast; omega, ?_, this.2.2.2⟩
      intro j j0 j1
      exact this.2.2.1 j j0 (by push_cast at j1; omega)

/-- The slot chosen by `tlb_update` lies in the TLB; it is the first invalid
entry if there is one and otherwise the first entry with the smallest
`access_time`. -/
theorem replace_index_spec (tlb : Int → TLBEntry) :
    0 ≤ replace_index tlb ∧ replace_index tlb < 16 ∧
    ((∃ i, 0 ≤ i ∧ i < 16 ∧ (tlb i).valid = false) →
      (tlb (replace_index tlb)).valid = false ∧
      ∀ j, 0 ≤ j → j < replace_index tlb → (tlb j).valid = true) ∧
    ((∀ i, 0 ≤ i → i < 16 → (tlb i).valid = true) →
      (∀ j, 0 ≤ j → j < 16 →
        (tlb (replace_index tlb)).access_time ≤ (tlb j).access_time) ∧
      (∀ j, 0 ≤ j → j < replace_index tlb →
        (tlb (replace_index tlb)).access_time < (tlb j).access_time)) := by
  unfold replace_index
  rcases find_invalid_loop_spec tlb TLB_SIZE 0 (le_refl _) with ⟨h1, h2⟩ | ⟨h1, h2, h3, h4⟩
  · rw [if_pos h1]
    have hl := lru_loop_spec tlb (TLB_SIZE - 1) 1 (tlb 0).access_time 0 (le_refl _)
      (by omega) rfl
      (by
        intro j j0 j1
        have : j = 0 := by omega
        rw [this])
      (by intro j j0 j1; omega)
    have h16 : (1 : Int) + ((TLB_SIZE - 1 : Nat) : Int) = 16 := by decide
    rw [h16] at hl
    refine ⟨hl.1, hl.2.1, ?_, ?_⟩
    · rintro ⟨i, i0, i1, hv⟩
      rw [h2 i (by omega) (by simp only [TLB_SIZE]; push_cast; omega)] at hv
      exact absurd hv (by simp)
    · intro _
      exact ⟨hl.2.2.1, hl.2.2.2⟩
  · have hne : find_invalid_loop tlb TLB_SIZE 0 ≠ -1 := by omega
    rw [if_neg hne]
    have h16 : (0 : Int) + ((TLB_SIZE : Nat) : Int) = 16 := by decide
    rw [h16] at h2
    refine ⟨h1, h2, ?_, ?_⟩
    · intro _
      exact ⟨h3, fun j j0 j1 => h4 j j0 j1⟩
    · intro hall
      rw [hall _ h1 h2] at h3
      exact absurd h3 (by simp)

/-- Claim C6.  The function `tlb_update` overwrites one slot of the TLB, the
one at `replace_index`, with the valid entry for `(vpn, frame)` stamped with
the logical clock, leaves every other slot unchanged and advances the logical
clock by one (as a `uint64_t`).  The slot is the lowest-index invalid entry if
there is one; if all 16 are valid it has the smallest `access_time`, and every
entry before it has a strictly larger one. -/
theorem tlb_update_policy (pt : TwoLevelPageTable) (vpn frame : Nat) :
    0 ≤ replace_index pt.tlb ∧ replace_index pt.tlb < 16 ∧
    (tlb_update pt vpn frame).tlb (replace_index pt.tlb) =
      ⟨true, vpn, frame, pt.access_counter⟩ ∧
    (∀ i, i ≠ replace_index pt.tlb → (tlb_update pt vpn frame).tlb i = pt.tlb i) ∧
    (tlb_update pt vpn frame).access_counter = (pt.access_counter + 1) % 2 ^ 64 ∧
    ((∃ i, 0 ≤ i ∧ i < 16 ∧ (pt.tlb i).valid = false) →
      (pt.tlb (replace_index pt.tlb)).valid = false ∧
      ∀ j, 0 ≤ j → j < replace_index pt.tlb → (pt.tlb j).valid = true) ∧
    ((∀ i, 0 ≤ i → i < 16 → (pt.tlb i).valid = true) →
      (∀ j, 0 ≤ j → j < 16 →
        (pt.tlb (replace_index pt.tlb)).access_time ≤ (pt.tlb j).access_time) ∧
      (∀ j, 0 ≤ j → j < replace_index pt.tlb →
        (pt.tlb (replace_index pt.tlb)).access_time < (pt.tlb j).access_time)) ∧
    (tlb_update pt vpn frame).outer_table = pt.outer_table ∧
    (tlb_update pt vpn frame).tlb_hits = pt.tlb_hits ∧
    (tlb_update pt vpn frame).tlb_misses = pt.tlb_misses ∧
    (tlb_update pt vpn frame).page_table_accesses = pt.page_table_accesses := by
  obtain ⟨h0, h1, hinv, hlru⟩ := replace_index_spec pt.tlb
  refine ⟨h0, h1, ?_, ?_, rfl, hinv, hlru, rfl, rfl, rfl, rfl⟩
  · simp only [tlb_update]
    exact Function.update_same _ _ _
  · intro i hi
    simp only [tlb_update]
    exact Function.update_noteq hi _ _

/-! ## The TLB: lookup -/

theorem init_tlb_loop_apply :
    ∀ (k : Nat) (i : Int) (tlb : Int → TLBEntry) (j : Int),
      init_tlb_loop k i tlb j =
        if i ≤ j ∧ j < i + k then { tlb j with valid := false, access_time := 0 }
        else tlb j := by
  intro k
  induction k with
  | zero =>
    intro i tlb j
    have : ¬ (i ≤ j ∧ j < i + ((0 : Nat) : Int)) := by push_cast; omega
    rw [if_neg this]
    rfl
  | succ k ih =>
    intro i tlb j
    rw [init_tlb_loop, ih]
    by_cases hj : j = i
    · subst hj
      have h1 : ¬ (j + 1 ≤ j ∧ j < j + 1 + (k : Int)) := by omega
      have h2 : j ≤ j ∧ j < j + ((k + 1 : Nat) : Int) := by push_cast; omega
      rw [if_neg h1, if_pos h2, Function.update_same]
    · rw [Function.update_noteq hj]
      by_cases h : i ≤ j ∧ j < i + ((k + 1 : Nat) : Int)
      · have h1 : i + 1 ≤ j ∧ j < i + 1 + (k : Int) := by push_cast at h; omega
        rw [if_pos h, if_pos h1]
      · have h1 : ¬ (i + 1 ≤ j ∧ j < i + 1 + (k : Int)) := by push_cast at h; omega
        rw [if_neg h, if_neg h1]

theorem init_page_table_tlb_invalid (uninit : Int → TLBEntry) (j : Int)
    (j0 : 0 ≤ j) (j1 : j < 16) :
    ((init_page_table uninit).tlb j).valid = false ∧
    ((init_page_table uninit).tlb j).access_time = 0 := by
  simp only [init_page_table, init_tlb_loop_apply]
  rw [if_pos ⟨j0, by simp only [TLB_SIZE]; push_cast; omega⟩]
  exact ⟨rfl, rfl⟩

/-- What `tlb_lookup` does: a miss when no valid entry of the TLB carries the
VPN, counted in `tlb_misses`; otherwise a hit on the first such entry, which
is stamped with the logical clock. -/
theorem tlb_lookup_loop_spec (pt : TwoLevelPageTable) (vpn : Nat) :
    ∀ (k : Nat) (i : Int),
      (tlb_lookup_loop pt vpn k i =
          (none, { pt with tlb_misses := (pt.tlb_misses + 1) % 2 ^ 64 }) ∧
        ∀ j, i ≤ j → j < i + k → ¬ ((pt.tlb j).valid = true ∧ (pt.tlb j).vpn = vpn)) ∨
      (∃ m, i ≤ m ∧ m < i + k ∧ (pt.tlb m).valid = true ∧ (pt.tlb m).vpn = vpn ∧
        (∀ j, i ≤ j → j < m → ¬ ((pt.tlb j).valid = true ∧ (pt.tlb j).vpn = vpn)) ∧
        tlb_lookup_loop pt vpn k i =
          (some (pt.tlb m).frame_number,
            { pt with
              tlb := Function.update pt.tlb m
                { pt.tlb m with access_time := pt.access_counter }
              access_counter := (pt.access_counter + 1) % 2 ^ 64
              tlb_hits := (pt.tlb_hits + 1) % 2 ^ 64 })) := by
  intro k
  induction k with
  | zero =>
    intro i
    left
    refine ⟨rfl, ?_⟩
    intro j h1 h2
    simp at h2
    omega
  | succ k ih =>
    intro i
    unfold tlb_lookup_loop
    by_cases h : (pt.tlb i).valid = true ∧ (pt.tlb i).vpn = vpn
    · right
      have hc : ((pt.tlb i).valid && (pt.tlb i).vpn == vpn) = true := by
        simp [h.1, h.2]
      rw [if_pos hc]
      exact ⟨i, le_refl _, by push_cast; omega, h.1, h.2, fun j a b => by omega, rfl⟩
    · have hc : ¬ ((pt.tlb i).valid && (pt.tlb i).vpn == vpn) = true := by
        simpa using h
      rw [if_neg hc]
      rcases ih (i + 1) with ⟨h1, h2⟩ | ⟨m, m0, m1, hv, hp, hfirst, hres⟩
      · left
        refine ⟨h1, ?_⟩
        intro j j0 j1
        by_cases hj : j = i
        · rw [hj]; exact h
        · exact h2 j (by omega) (by push_cast at j1; omega)
      · right
        refine ⟨m, by omega, by push_cast; omega, hv, hp, ?_, hres⟩
        intro j j0 j1
        by_cases hj : j = i
        · rw [hj]; exact h
        · exact hfirst j (by omega) j1

theorem tlb_lookup_spec (pt : TwoLevelPageTable) (vpn : Nat) :
    (tlb_lookup pt vpn = (none, { pt with tlb_misses := (pt.tlb_misses + 1) % 2 ^ 64 }) ∧
      ∀ j, 0 ≤ j → j < 16 → ¬ ((pt.tlb j).valid = true ∧ (pt.tlb j).vpn = vpn)) ∨
    (∃ m, 0 ≤ m ∧ m < 16 ∧ (pt.tlb m).valid = true ∧ (pt.tlb m).vpn = vpn ∧
      (∀ j, 0 ≤ j → j < m → ¬ ((pt.tlb j).valid = true ∧ (pt.tlb j).vpn = vpn)) ∧
      tlb_lookup pt vpn =
        (some (pt.tlb m).frame_number,
          { pt with
            tlb := Function.update pt.tlb m
              { pt.tlb m with access_time := pt.access_counter }
            access_counter := (pt.access_counter + 1) % 2 ^ 64
            tlb_hits := (pt.tlb_hits + 1) % 2 ^ 64 })) := by
  have h16 : (0 : Int) + ((TLB_SIZE : Nat) : Int) = 16 := by decide
  have h := tlb_lookup_loop_spec pt vpn TLB_SIZE 0
  rw [h16] at h
  exact h

/-! ## Translation: the cases of `translate_address` -/

theorem translate_address_hit (pt pt1 : TwoLevelPageTable) (virtual_addr frame_number : Nat)
    (h : tlb_lookup pt (vpn_of virtual_addr) = (some frame_number, pt1)) :
    translate_address pt virtual_addr =
      ⟨((frame_number <<< OFFSET_BITS) % 2 ^ 32) |||
          (extract_address_components virtual_addr).2.2, false, pt1⟩ := by
  simp only [translate_address, h]

theorem translate_address_no_inner (pt pt1 : TwoLevelPageTable) (virtual_addr : Nat)
    (h : tlb_lookup pt (vpn_of virtual_addr) = (none, pt1))
    (ho : pt1.outer_table (extract_address_components virtual_addr).1 = none) :
    translate_address pt virtual_addr =
      ⟨0, true,
        { pt1 with page_table_accesses := (pt1.page_table_accesses + 1) % 2 ^ 64 }⟩ := by
  simp only [translate_address, h, ho]

theorem translate_address_not_present (pt pt1 : TwoLevelPageTable) (virtual_addr : Nat)
    (inner_table : InnerPageTable)
    (h : tlb_lookup pt (vpn_of virtual_addr) = (none, pt1))
    (ho : pt1.outer_table (extract_address_components virtual_addr).1 = some inner_table)
    (hp : (inner_table.entries (extract_address_components virtual_addr).2.1).present
      = false) :
    translate_address pt virtual_addr =
      ⟨0, true,
        { pt1 with
          page_table_accesses :=
            ((pt1.page_table_accesses + 1) % 2 ^ 64 + 1) % 2 ^ 64 }⟩ := by
  simp only [translate_address, h, ho, hp, Bool.not_false, if_true]

theorem translate_address_walk (pt pt1 : TwoLevelPageTable) (virtual_addr : Nat)
    (inner_table : InnerPageTable)
    (h : tlb_lookup pt (vpn_of virtual_addr) = (none, pt1))
    (ho : pt1.outer_table (extract_address_components virtual_addr).1 = some inner_table)
    (hp : (inner_table.entries (extract_address_components virtual_addr).2.1).present
      = true) :
    translate_address pt virtual_addr =
      ⟨(((inner_table.entries
            (extract_address_components virtual_addr).2.1).frame_number <<< OFFSET_BITS)
          % 2 ^ 32) ||| (extract_address_components virtual_addr).2.2, false,
        tlb_update
          { pt1 with
            page_table_accesses :=
              ((pt1.page_table_accesses + 1) % 2 ^ 64 + 1) % 2 ^ 64 }
          (vpn_of virtual_addr)
          (inner_table.entries (extract_address_components virtual_addr).2.1).frame_number⟩ := by
  simp only [translate_address, h, ho, hp, Bool.not_true, Bool.false_eq_true, if_false]

/-! ## Translation: a page that was never mapped -/

theorem outer_eq_div_mod (a : Nat) :
    (extract_address_components a).1 = a / 2 ^ 22 % 2 ^ 10 := by
  have hm : OUTER_MASK = (2 ^ 10 - 1) <<< 22 := by decide
  simp only [extract_address_components, hm, INNER_PAGE_BITS, OFFSET_BITS]
  rw [and_shiftLeft_shiftRight, Nat.and_pow_two_sub_one_eq_mod, Nat.shiftRight_eq_div_pow]

/-- The outer and inner index are the two halves of the VPN. -/
theorem indices_of_vpn (a : Nat) :
    (extract_address_components a).1 = vpn_of a / 2 ^ 10 ∧
    (extract_address_components a).2.1 = vpn_of a % 2 ^ 10 := by
  rw [outer_eq_div_mod, inner_eq_div_mod, vpn_of_eq_div_mod]
  omega

theorem map_page_outer (pt : TwoLevelPageTable) (virtual_addr frame : Nat) :
    (map_page pt virtual_addr frame).outer_table =
      Function.update pt.outer_table (extract_address_components virtual_addr).1
        (some ⟨Function.update
          (match pt.outer_table (extract_address_components virtual_addr).1 with
            | none => zeroed_inner_table
            | some t => t).entries
          (extract_address_components virtual_addr).2.1 ⟨true, frame, false, true⟩⟩) := by
  rfl

/-- One call keeps the page of `va` unmapped and out of the TLB, unless the
call maps that very page. -/
theorem unmapped_step (pt : TwoLevelPageTable) (va : Nat) (c : Call)
    (htlb : ∀ i, 0 ≤ i → i < 16 →
      ¬ ((pt.tlb i).valid = true ∧ (pt.tlb i).vpn = vpn_of va))
    (hpte : ∀ t, pt.outer_table (extract_address_components va).1 = some t →
      (t.entries (extract_address_components va).2.1).present = false)
    (hc : ∀ va2 frame, c = Call.map va2 frame →
      ((extract_address_components va2).1, (extract_address_components va2).2.1) ≠
        ((extract_address_components va).1, (extract_address_components va).2.1)) :
    (∀ i, 0 ≤ i → i < 16 →
      ¬ (((apply_call pt c).tlb i).valid = true ∧ ((apply_call pt c).tlb i).vpn = vpn_of va)) ∧
    (∀ t, (apply_call pt c).outer_table (extract_address_components va).1 = some t →
      (t.entries (extract_address_components va).2.1).present = false) := by
  cases c with
  | map va2 frame =>
    refine ⟨htlb, ?_⟩
    intro t ht
    simp only [apply_call, map_page_outer] at ht
    have hne := hc va2 frame rfl
    by_cases ho : (extract_address_components va).1 = (extract_address_components va2).1
    · rw [ho, Function.update_same] at ht
      have hi : (extract_address_components va).2.1 ≠ (extract_address_components va2).2.1 := by
        intro hi
        exact hne (by rw [ho, hi])
      injection ht with ht
      rw [← ht]
      simp only
      rw [Function.update_noteq hi]
      cases hcase : pt.outer_table (extract_address_components va2).1 with
      | none => rfl
      | some t0 =>
        simp only
        exact hpte t0 (by rw [ho]; exact hcase)
    · rw [Function.update_noteq ho] at ht
      exact hpte t ht
  | translate va2 =>
    simp only [apply_call]
    rcases tlb_lookup_spec pt (vpn_of va2) with ⟨hmiss, _⟩ | ⟨m, m0, m1, hv, hp, _, hhit⟩
    · cases ho : pt.outer_table (extract_address_components va2).1 with
      | none =>
        rw [translate_address_no_inner pt _ va2 hmiss ho]
        exact ⟨htlb, hpte⟩
      | some t2 =>
        by_cases hpres : (t2.entries (extract_address_components va2).2.1).present = true
        · rw [translate_address_walk pt _ va2 t2 hmiss ho hpres]
          refine ⟨?_, hpte⟩
          intro i i0 i1
          simp only [tlb_update]
          by_cases hi : i = replace_index pt.tlb
          · rw [hi, Function.update_same]
            simp only [true_and]
            intro heq
            have h2 := indices_of_vpn va2
            have h1 := indices_of_vpn va
            rw [heq] at h2
            have e1 : (extract_address_components va2).1 =
                (extract_address_components va).1 := by rw [h2.1, h1.1]
            have e2 : (extract_address_components va2).2.1 =
                (extract_address_components va).2.1 := by rw [h2.2, h1.2]
            rw [e2] at hpres
            rw [e1] at ho
            rw [hpte t2 ho] at hpres
            exact absurd hpres (by simp)
          · rw [Function.update_noteq hi]
            exact htlb i i0 i1
        · have hnp : (t2.entries (extract_address_components va2).2.1).present = false := by
            simpa using hpres
          rw [translate_address_not_present pt _ va2 t2 hmiss ho hnp]
          exact ⟨htlb, hpte⟩
    · rw [translate_address_hit pt _ va2 _ hhit]
      refine ⟨?_, hpte⟩
      intro i i0 i1
      simp only
      by_cases hi : i = m
      · rw [hi, Function.update_same]
        exact htlb m m0 m1
      · rw [Function.update_noteq hi]
        exact htlb i i0 i1

theorem unmapped_run (va : Nat) :
    ∀ (calls : List Call) (pt : TwoLevelPageTable),
      (∀ i, 0 ≤ i → i < 16 →
        ¬ ((pt.tlb i).valid = true ∧ (pt.tlb i).vpn = vpn_of va)) →
      (∀ t, pt.outer_table (extract_address_components va).1 = some t →
        (t.entries (extract_address_components va).2.1).present = false) →
      (∀ va2 frame, Call.map va2 frame ∈ calls →
        ((extract_address_components va2).1, (extract_address_components va2).2.1) ≠
          ((extract_address_components va).1, (extract_address_components va).2.1)) →
      (∀ i, 0 ≤ i → i < 16 →
        ¬ (((run_calls pt calls).tlb i).valid = true ∧
            ((run_calls pt calls).tlb i).vpn = vpn_of va)) ∧
      (∀ t, (run_calls pt calls).outer_table (extract_address_components va).1 = some t →
        (t.entries (extract_address_components va).2.1).present = false) := by
  intro calls
  induction calls with
  | nil =>
    intro pt htlb hpte _
    exact ⟨htlb, hpte⟩
  | cons c rest ih =>
    intro pt htlb hpte hc
    obtain ⟨h1, h2⟩ := unmapped_step pt va c htlb hpte
      (fun va2 frame heq => hc va2 frame (by rw [heq]; simp))
    exact ih (apply_call pt c) h1 h2
      (fun va2 frame hmem => hc va2 frame (List.mem_cons_of_mem _ hmem))

/-- Claim C7.  After any sequence of `map_page` and `translate_address` calls
from `init_page_table` in which no `map_page` targeted the (outer, inner) index
pair of `va`, `translate_address va` reports a page fault with return value 0,
leaves every TLB entry and the logical access counter unchanged, and adds one
to `tlb_misses` (as a `uint64_t`). -/
theorem unmapped_access (uninit : Int → TLBEntry) (calls : List Call) (va : Nat)
    (_hfits : ∀ c ∈ calls, c.fits) (_hva : va < 2 ^ 32)
    (hnomap : ∀ va2 frame, Call.map va2 frame ∈ calls →
      ((extract_address_components va2).1, (extract_address_components va2).2.1) ≠
        ((extract_address_components va).1, (extract_address_components va).2.1)) :
    (translate_address (run_calls (init_page_table uninit) calls) va).page_fault = true ∧
    (translate_address (run_calls (init_page_table uninit) calls) va).physical = 0 ∧
    (∀ i, (translate_address (run_calls (init_page_table uninit) calls) va).pt.tlb i =
      (run_calls (init_page_table uninit) calls).tlb i) ∧
    (translate_address (run_calls (init_page_table uninit) calls) va).pt.access_counter =
      (run_calls (init_page_table uninit) calls).access_counter ∧
    (translate_address (run_calls (init_page_table uninit) calls) va).pt.tlb_misses =
      ((run_calls (init_page_table uninit) calls).tlb_misses + 1) % 2 ^ 64 ∧
    (translate_address (run_calls (init_page_table uninit) calls) va).pt.tlb_hits =
      (run_calls (init_page_table uninit) calls).tlb_hits := by
  obtain ⟨htlb, hpte⟩ := unmapped_run va calls (init_page_table uninit)
    (by
      intro i i0 i1 h
      rw [(init_page_table_tlb_invalid uninit i i0 i1).1] at h
      exact absurd h.1 (by simp))
    (by intro t ht; simp [init_page_table] at ht)
    hnomap
  generalize run_calls (init_page_table uninit) calls = pt at htlb hpte
  rcases tlb_lookup_spec pt (vpn_of va) with ⟨hmiss, _⟩ | ⟨m, m0, m1, hv, hp, _, _⟩
  · cases ho : pt.outer_table (extract_address_components va).1 with
    | none =>
      rw [translate_address_no_inner pt _ va hmiss ho]
      exact ⟨rfl, rfl, fun _ => rfl, rfl, rfl, rfl⟩
    | some t =>
      rw [translate_address_not_present pt _ va t hmiss ho (hpte t ho)]
      exact ⟨rfl, rfl, fun _ => rfl, rfl, rfl, rfl⟩
  · exact absurd ⟨hv, hp⟩ (htlb m m0 m1)

/-- Witness for C7: pages 0 and 1 are mapped and translated, page 2 is not. -/
theorem unmapped_access_witness :
    (translate_address (run_calls (init_page_table stale_tlb)
      [Call.map 0 100, Call.map 0x1000 101, Call.translate 0x1234]) 0x2000).page_fault = true ∧
    (translate_address (run_calls (init_page_table stale_tlb)
      [Call.map 0 100, Call.map 0x1000 101, Call.translate 0x1234]) 0x2000).physical = 0 := by
  have hfits : ∀ c ∈ [Call.map 0 100, Call.map 0x1000 101, Call.translate 0x1234],
      c.fits := by
    intro c hc
    simp only [List.mem_cons, List.mem_singleton, List.not_mem_nil, or_false] at hc
    rcases hc with rfl | rfl | rfl <;> simp [Call.fits]
  have hnomap : ∀ va2 frame,
      Call.map va2 frame ∈ [Call.map 0 100, Call.map 0x1000 101, Call.translate 0x1234] →
      ((extract_address_components va2).1, (extract_address_components va2).2.1) ≠
        ((extract_address_components 0x2000).1, (extract_address_components 0x2000).2.1) := by
    intro va2 frame hc
    simp only [List.mem_cons, List.mem_singleton, List.not_mem_nil, or_false,
      Call.map.injEq, reduceCtorEq] at hc
    rcases hc with ⟨rfl, rfl⟩ | ⟨rfl, rfl⟩ <;> decide
  exact ⟨(unmapped_access stale_tlb _ 0x2000 hfits (by decide) hnomap).1,
    (unmapped_access stale_tlb _ 0x2000 hfits (by decide) hnomap).2.1⟩

/-! ## Translation: round trip -/

/-- Claim C1, as amended.  In any translator state whose TLB holds no valid
entry for the page of `va` with a frame number other than `frame`, after
`map_page va frame` a call `translate_address va2`, for any `va2` in the page
of `va`, reports no page fault and returns `(frame << 12) | (va2 & 0xFFF)`,
the shift being taken in `uint32_t`. -/
theorem translation_round_trip (pt : TwoLevelPageTable) (va frame va2 : Nat)
    (_hva : va < 2 ^ 32) (_hva2 : va2 < 2 ^ 32) (_hframe : frame < 2 ^ 32)
    (hpage : va2 >>> 12 = va >>> 12)
    (hfresh : ∀ i, 0 ≤ i → i < 16 → (pt.tlb i).valid = true →
      (pt.tlb i).vpn = vpn_of va → (pt.tlb i).frame_number = frame) :
    (translate_address (map_page pt va frame) va2).page_fault = false ∧
    (translate_address (map_page pt va frame) va2).physical =
      ((frame <<< 12) % 2 ^ 32) ||| (va2 &&& 0xFFF) := by
  have hvpn : vpn_of va2 = vpn_of va := by
    simp only [vpn_of, OFFSET_BITS, hpage]
  have h1 := indices_of_vpn va
  have h2 := indices_of_vpn va2
  rw [hvpn] at h2
  have e1 : (extract_address_components va2).1 = (extract_address_components va).1 := by
    rw [h2.1, h1.1]
  have e2 : (extract_address_components va2).2.1 = (extract_address_components va).2.1 := by
    rw [h2.2, h1.2]
  have hoff : (extract_address_components va2).2.2 = va2 &&& 0xFFF := rfl
  rcases tlb_lookup_spec (map_page pt va frame) (vpn_of va2) with
    ⟨hmiss, _⟩ | ⟨m, m0, m1, hv, hp, _, hhit⟩
  · obtain ⟨t, ho, hentry⟩ : ∃ t : InnerPageTable,
        (map_page pt va frame).outer_table (extract_address_components va2).1 = some t ∧
        t.entries (extract_address_components va2).2.1 = ⟨true, frame, false, true⟩ := by
      refine ⟨_, by rw [map_page_outer, e1, Function.update_same], ?_⟩
      show Function.update _ _ _ _ = _
      rw [e2, Function.update_same]
    rw [translate_address_walk (map_page pt va frame) _ va2 t hmiss ho (by rw [hentry])]
    simp only [hentry, hoff, OFFSET_BITS, and_self]
  · have hfr : ((map_page pt va frame).tlb m).frame_number = frame :=
      hfresh m m0 m1 hv (by rw [← hvpn]; exact hp)
    rw [translate_address_hit (map_page pt va frame) _ va2 _ hhit, hfr]
    simp only [hoff, OFFSET_BITS, and_self]

/-- Witness for C1 as amended: a first mapping of page `0x00401` on a fresh
translator, read back at offset `0xFFF`. -/
theorem translation_round_trip_witness :
    (translate_address (map_page (init_page_table stale_tlb) 0x00401ABC 5)
      0x00401FFF).page_fault = false ∧
    (translate_address (map_page (init_page_table stale_tlb) 0x00401ABC 5)
      0x00401FFF).physical = ((5 <<< 12) % 2 ^ 32) ||| (0x00401FFF &&& 0xFFF) :=
  translation_round_trip (init_page_table stale_tlb) 0x00401ABC 5 0x00401FFF
    (by decide) (by decide) (by decide) (by decide) (by decide)

/-- Counterexample to C1 as stated: in the reachable state where page 1 was
mapped to frame 5 and translated once, mapping it to frame 7 and translating
again still yields frame 5, served from the TLB. -/
theorem round_trip_fails_after_remap :
    Reachable cached_example ∧
    (translate_address (map_page cached_example 0x1000 7) 0x1000).page_fault = false ∧
    (translate_address (map_page cached_example 0x1000 7) 0x1000).physical = 0x5000 ∧
    (translate_address (map_page cached_example 0x1000 7) 0x1000).physical ≠
      ((7 <<< 12) % 2 ^ 32) ||| (0x1000 &&& 0xFFF) := by
  refine ⟨⟨stale_tlb, [Call.map 0x1000 5, Call.translate 0x1000], ?_, rfl⟩, ?_, ?_, ?_⟩
  · intro c hc
    simp only [List.mem_cons, List.mem_singleton, List.not_mem_nil, or_false] at hc
    rcases hc with rfl | rfl <;> simp [Call.fits]
  · decide
  · decide
  · decide

/-! ## Translation: a stale TLB entry -/

/-- Claim C11.  In a translator state that satisfies the TLB invariant (valid
entries carry distinct VPNs) and whose TLB holds a valid entry for the VPN of
`va` with frame `f1`, after `map_page va f2` the call `translate_address va`
is a TLB hit: `tlb_hits` grows by one (as a `uint64_t`), `tlb_misses` and
`page_table_accesses` are unchanged, no fault is reported and the result is
`(f1 << 12) | (va & 0xFFF)`, built from the old frame whatever `f2` is. -/
theorem stale_tlb_entry_after_remap (pt : TwoLevelPageTable) (va f1 f2 : Nat)
    (_hva : va < 2 ^ 32) (_hf2 : f2 < 2 ^ 32)
    (huniq : ∀ i j, 0 ≤ i → i < 16 → 0 ≤ j → j < 16 →
      (pt.tlb i).valid = true → (pt.tlb j).valid = true →
      (pt.tlb i).vpn = (pt.tlb j).vpn → i = j)
    (hentry : ∃ i, 0 ≤ i ∧ i < 16 ∧ (pt.tlb i).valid = true ∧
      (pt.tlb i).vpn = vpn_of va ∧ (pt.tlb i).frame_number = f1) :
    (translate_address (map_page pt va f2) va).page_fault = false ∧
    (translate_address (map_page pt va f2) va).physical =
      ((f1 <<< 12) % 2 ^ 32) ||| (va &&& 0xFFF) ∧
    (translate_address (map_page pt va f2) va).pt.tlb_hits =
      (pt.tlb_hits + 1) % 2 ^ 64 ∧
    (translate_address (map_page pt va f2) va).pt.tlb_misses = pt.tlb_misses ∧
    (translate_address (map_page pt va f2) va).pt.page_table_accesses =
      pt.page_table_accesses := by
  obtain ⟨i, i0, i1, hv, hp, hf⟩ := hentry
  have hoff : (extract_address_components va).2.2 = va &&& 0xFFF := rfl
  rcases tlb_lookup_spec (map_page pt va f2) (vpn_of va) with
    ⟨_, hnone⟩ | ⟨m, m0, m1, hmv, hmp, _, hhit⟩
  · exact absurd ⟨hv, hp⟩ (hnone i i0 i1)
  · have hmi : m = i := huniq m i m0 m1 i0 i1 hmv hv (by rw [hp]; exact hmp)
    have hfr : ((map_page pt va f2).tlb m).frame_number = f1 := by
      rw [hmi]; exact hf
    rw [translate_address_hit (map_page pt va f2) _ va _ hhit, hfr]
    simp only [hoff, OFFSET_BITS]
    exact ⟨trivial, trivial, rfl, rfl, rfl⟩

/-- Witness for C11: in `cached_example` the TLB holds the pair (1, 5); page 1
is then mapped to frame 7. -/
theorem stale_tlb_entry_after_remap_witness :
    (translate_address (map_page cached_example 0x1000 7) 0x1000).page_fault = false ∧
    (translate_address (map_page cached_example 0x1000 7) 0x1000).physical =
      ((5 <<< 12) % 2 ^ 32) ||| (0x1000 &&& 0xFFF) ∧
    (translate_address (map_page cached_example 0x1000 7) 0x1000).pt.tlb_hits =
      (cached_example.tlb_hits + 1) % 2 ^ 64 ∧
    (translate_address (map_page cached_example 0x1000 7) 0x1000).pt.tlb_misses =
      cached_example.tlb_misses ∧
    (translate_address (map_page cached_example 0x1000 7) 0x1000).pt.page_table_accesses =
      cached_example.page_table_accesses := by
  have hzero : ∀ i, 0 ≤ i → i < 16 → (cached_example.tlb i).valid = true → i = 0 := by
    intro i i0 i1 hi
    interval_cases i <;> first | rfl | exact absurd hi (by decide)
  exact stale_tlb_entry_after_remap cached_example 0x1000 5 7 (by decide) (by decide)
    (fun i j i0 i1 j0 j1 hi hj _ => by rw [hzero i i0 i1 hi, hzero j j0 j1 hj])
    ⟨0, by decide, by decide, by decide, by decide, by decide⟩

/-! ## Translation: effect of `map_page` -/

/-- Claim C12.  The function `map_page` sets the PTE at `[outer][inner]` to
`{present, frame, not dirty, referenced}`; when the outer slot had no inner
table the new one has every other PTE zeroed (`present = false`), otherwise
every other PTE of that inner table is kept; every other outer slot, the TLB,
`tlb_hits`, `tlb_misses`, `page_table_accesses` and the logical access
counter are unchanged. -/
theorem map_page_postcondition (pt : TwoLevelPageTable) (va frame : Nat) :
    (∃ t, (map_page pt va frame).outer_table (extract_address_components va).1 = some t ∧
      t.entries (extract_address_components va).2.1 = ⟨true, frame, false, true⟩ ∧
      (pt.outer_table (extract_address_components va).1 = none →
        ∀ j, j ≠ (extract_address_components va).2.1 →
          t.entries j = ⟨false, 0, false, false⟩ ∧ (t.entries j).present = false) ∧
      (∀ t0, pt.outer_table (extract_address_components va).1 = some t0 →
        ∀ j, j ≠ (extract_address_components va).2.1 → t.entries j = t0.entries j)) ∧
    (∀ o, o ≠ (extract_address_components va).1 →
      (map_page pt va frame).outer_table o = pt.outer_table o) ∧
    (map_page pt va frame).tlb = pt.tlb ∧
    (map_page pt va frame).tlb_hits = pt.tlb_hits ∧
    (map_page pt va frame).tlb_misses = pt.tlb_misses ∧
    (map_page pt va frame).page_table_accesses = pt.page_table_accesses ∧
    (map_page pt va frame).access_counter = pt.access_counter := by
  refine ⟨⟨_, by rw [map_page_outer, Function.update_same], ?_, ?_, ?_⟩, ?_,
    rfl, rfl, rfl, rfl, rfl⟩
  · exact Function.update_same _ _ _
  · intro hnone j hj
    simp only [hnone]
    rw [Function.update_noteq hj]
    exact ⟨rfl, rfl⟩
  · intro t0 hsome j hj
    simp only [hsome]
    rw [Function.update_noteq hj]
  · intro o ho
    rw [map_page_outer, Function.update_noteq ho]

/-! ## Translation: counting the page-table accesses -/

/-- Claim C16.  One call of `translate_address` leaves `page_table_accesses`
unchanged on a TLB hit, adds one on a TLB miss whose outer slot has no inner
table (a page fault), and adds two on a TLB miss whose outer slot has an inner
table, whether the PTE is present (success) or not (page fault); the additions
are those of a `uint64_t`. -/
theorem page_table_access_counting (pt : TwoLevelPageTable) (va : Nat) :
    ((∃ i, 0 ≤ i ∧ i < 16 ∧ (pt.tlb i).valid = true ∧ (pt.tlb i).vpn = vpn_of va) →
      (translate_address pt va).pt.page_table_accesses = pt.page_table_accesses ∧
      (translate_address pt va).page_fault = false) ∧
    ((∀ i, 0 ≤ i → i < 16 → ¬ ((pt.tlb i).valid = true ∧ (pt.tlb i).vpn = vpn_of va)) →
      (pt.outer_table (extract_address_components va).1 = none →
        (translate_address pt va).pt.page_table_accesses =
          (pt.page_table_accesses + 1) % 2 ^ 64 ∧
        (translate_address pt va).page_fault = true) ∧
      (∀ t, pt.outer_table (extract_address_components va).1 = some t →
        (translate_address pt va).pt.page_table_accesses =
          (pt.page_table_accesses + 2) % 2 ^ 64 ∧
        (translate_address pt va).page_fault =
          !(t.entries (extract_address_components va).2.1).present)) := by
  rcases tlb_lookup_spec pt (vpn_of va) with ⟨hmiss, hnone⟩ | ⟨m, m0, m1, hv, hp, _, hhit⟩
  · refine ⟨?_, fun _ => ⟨?_, ?_⟩⟩
    · rintro ⟨i, i0, i1, hiv, hip⟩
      exact absurd ⟨hiv, hip⟩ (hnone i i0 i1)
    · intro ho
      rw [translate_address_no_inner pt _ va hmiss ho]
      exact ⟨rfl, rfl⟩
    · intro t ho
      have hadd : ((pt.page_table_accesses + 1) % 2 ^ 64 + 1) % 2 ^ 64 =
          (pt.page_table_accesses + 2) % 2 ^ 64 := by omega
      by_cases hpres : (t.entries (extract_address_components va).2.1).present = true
      · rw [translate_address_walk pt _ va t hmiss ho hpres, hpres]
        exact ⟨hadd, rfl⟩
      · have hnp : (t.entries (extract_address_components va).2.1).present = false := by
          simpa using hpres
        rw [translate_address_not_present pt _ va t hmiss ho hnp, hnp]
        exact ⟨hadd, rfl⟩
  · refine ⟨fun _ => ?_, fun hnone => absurd ⟨hv, hp⟩ (hnone m m0 m1)⟩
    rw [translate_address_hit pt _ va _ hhit]
    exact ⟨rfl, rfl⟩

/-! ## Clock replacement: the sentinel page -/

theorem find_page_loop_congr (frames1 frames2 : Int → Frame) (page : Int)
    (h : ∀ i, (frames1 i).page_number = (frames2 i).page_number) :
    ∀ (k : Nat) (i : Int),
      find_page_loop frames1 page k i = find_page_loop frames2 page k i := by
  intro k
  induction k with
  | zero => intro i; rfl
  | succ k ih =>
    intro i
    unfold find_page_loop
    rw [h i, ih]

/-- Claim C20.  In a state with an empty frame, `access_page` on page `-1`
takes the hit path: it returns, the three counters, the hand and every page
number are unchanged, the first empty frame gets its reference bit set (and
its dirty bit set on a write, kept on a read), and `find_empty_frame` still
reports that frame as the first empty one. -/
theorem sentinel_collision (fuel : Nat) (clock : ClockPageReplacement) (is_write : Bool)
    (hempty : ∃ i, 0 ≤ i ∧ i < clock.num_frames ∧ (clock.frames i).page_number = -1) :
    ∃ f clock1,
      access_page fuel clock (-1) is_write = some clock1 ∧
      find_empty_frame clock = f ∧ 0 ≤ f ∧ f < clock.num_frames ∧
      (clock.frames f).page_number = -1 ∧
      (∀ j, 0 ≤ j → j < f → (clock.frames j).page_number ≠ -1) ∧
      clock1.page_faults = clock.page_faults ∧
      clock1.page_replacements = clock.page_replacements ∧
      clock1.disk_writes = clock.disk_writes ∧
      clock1.clock_hand = clock.clock_hand ∧
      (∀ i, (clock1.frames i).page_number = (clock.frames i).page_number) ∧
      (clock1.frames f).reference_bit = true ∧
      (is_write = true → (clock1.frames f).dirty_bit = true) ∧
      (is_write = false → (clock1.frames f).dirty_bit = (clock.frames f).dirty_bit) ∧
      (∀ i, i ≠ f → clock1.frames i = clock.frames i) ∧
      find_empty_frame clock1 = f := by
  obtain ⟨f0, f1, fp, ffirst⟩ := find_page_of_resident clock (-1) hempty
  have hne : find_page clock (-1) ≠ -1 := by omega
  have hpages : ∀ i, ((Function.update clock.frames (find_page clock (-1))
      { clock.frames (find_page clock (-1)) with
        reference_bit := true
        dirty_bit :=
          if is_write then true else (clock.frames (find_page clock (-1))).dirty_bit }) i
      ).page_number = (clock.frames i).page_number := by
    intro i
    by_cases hi : i = find_page clock (-1)
    · subst hi; simp
    · simp [Function.update_noteq hi]
  refine ⟨find_page clock (-1), _, access_page_hit fuel clock (-1) is_write hne,
    find_empty_frame_eq clock, f0, f1, fp, ffirst, rfl, rfl, rfl, rfl, hpages, ?_, ?_, ?_,
    ?_, ?_⟩
  · simp
  · intro hw
    simp [hw]
  · intro hw
    simp [hw]
  · intro i hi
    simp [Function.update_noteq hi]
  · rw [find_empty_frame_eq]
    exact find_page_loop_congr _ _ (-1) hpages _ _

/-- Witness for C20: a fresh four-frame table, page `-1` written. -/
theorem sentinel_collision_witness :
    ∃ f clock1,
      access_page 0 (init_clock 4 stale_frames) (-1) true = some clock1 ∧
      find_empty_frame (init_clock 4 stale_frames) = f ∧
      clock1.page_faults = 0 ∧ (clock1.frames f).reference_bit = true ∧
      (clock1.frames f).dirty_bit = true ∧ find_empty_frame clock1 = f := by
  obtain ⟨f, clock1, h1, h2, -, -, -, -, h3, -, -, -, -, h4, h5, -, -, h6⟩ :=
    sentinel_collision 0 (init_clock 4 stale_frames) true
      ⟨0, by decide, by decide, by decide⟩
  exact ⟨f, clock1, h1, h2, h3, h4, h5 rfl, h6⟩

/-! ## The TLB: valid entries carry distinct VPNs -/

/-- Effect of `translate_address` on the page table and on the TLB: the page
table is never changed; the valid bit, VPN and frame number of every TLB
entry are kept, except after a TLB miss followed by a successful walk, when the
slot at `replace_index` receives the translation found in the page table. -/
theorem translate_address_tlb_effect (pt : TwoLevelPageTable) (va : Nat) :
    (translate_address pt va).pt.outer_table = pt.outer_table ∧
    ((∀ i, ((translate_address pt va).pt.tlb i).valid = (pt.tlb i).valid ∧
        ((translate_address pt va).pt.tlb i).vpn = (pt.tlb i).vpn ∧
        ((translate_address pt va).pt.tlb i).frame_number = (pt.tlb i).frame_number) ∨
      ((∀ i, 0 ≤ i → i < 16 → ¬ ((pt.tlb i).valid = true ∧ (pt.tlb i).vpn = vpn_of va)) ∧
        ∃ t, pt.outer_table (extract_address_components va).1 = some t ∧
          (t.entries (extract_address_components va).2.1).present = true ∧
          ∀ i, (translate_address pt va).pt.tlb i =
            if i = replace_index pt.tlb then
              ⟨true, vpn_of va,
                (t.entries (extract_address_components va).2.1).frame_number,
                pt.access_counter⟩
            else pt.tlb i)) := by
  rcases tlb_lookup_spec pt (vpn_of va) with ⟨hmiss, hnone⟩ | ⟨m, m0, m1, hv, hp, _, hhit⟩
  · cases ho : pt.outer_table (extract_address_components va).1 with
    | none =>
      rw [translate_address_no_inner pt _ va hmiss ho]
      exact ⟨rfl, Or.inl fun _ => ⟨rfl, rfl, rfl⟩⟩
    | some t =>
      by_cases hpres : (t.entries (extract_address_components va).2.1).present = true
      · rw [translate_address_walk pt _ va t hmiss ho hpres]
        refine ⟨rfl, Or.inr ⟨hnone, t, rfl, hpres, ?_⟩⟩
        intro i
        simp only [tlb_update]
        by_cases hi : i = replace_index pt.tlb
        · rw [if_pos hi, hi, Function.update_same]
        · rw [if_neg hi, Function.update_noteq hi]
      · have hnp : (t.entries (extract_address_components va).2.1).present = false := by
          simpa using hpres
        rw [translate_address_not_present pt _ va t hmiss ho hnp]
        exact ⟨rfl, Or.inl fun _ => ⟨rfl, rfl, rfl⟩⟩
  · rw [translate_address_hit pt _ va _ hhit]
    refine ⟨rfl, Or.inl ?_⟩
    intro i
    simp only
    by_cases hi : i = m
    · rw [hi, Function.update_same]
      exact ⟨rfl, rfl, rfl⟩
    · rw [Function.update_noteq hi]
      exact ⟨rfl, rfl, rfl⟩

theorem tlb_unique_step (pt : TwoLevelPageTable) (c : Call)
    (huniq : ∀ i j, 0 ≤ i → i < 16 → 0 ≤ j → j < 16 →
      (pt.tlb i).valid = true → (pt.tlb j).valid = true →
      (pt.tlb i).vpn = (pt.tlb j).vpn → i = j) :
    ∀ i j, 0 ≤ i → i < 16 → 0 ≤ j → j < 16 →
      ((apply_call pt c).tlb i).valid = true → ((apply_call pt c).tlb j).valid = true →
      ((apply_call pt c).tlb i).vpn = ((apply_call pt c).tlb j).vpn → i = j := by
  cases c with
  | map va frame => exact huniq
  | translate va =>
    simp only [apply_call]
    rcases (translate_address_tlb_effect pt va).2 with hsame | ⟨hnone, t, _, _, hnew⟩
    · intro i j i0 i1 j0 j1 hi hj hij
      rw [(hsame i).1] at hi
      rw [(hsame j).1] at hj
      rw [(hsame i).2.1, (hsame j).2.1] at hij
      exact huniq i j i0 i1 j0 j1 hi hj hij
    · intro i j i0 i1 j0 j1 hi hj hij
      rw [hnew i] at hi hij
      rw [hnew j] at hj hij
      by_cases hir : i = replace_index pt.tlb
      · by_cases hjr : j = replace_index pt.tlb
        · rw [hir, hjr]
        · rw [if_pos hir, if_neg hjr] at hij
          rw [if_neg hjr] at hj
          exact absurd ⟨hj, hij.symm⟩ (hnone j j0 j1)
      · by_cases hjr : j = replace_index pt.tlb
        · rw [if_neg hir, if_pos hjr] at hij
          rw [if_neg hir] at hi
          exact absurd ⟨hi, hij⟩ (hnone i i0 i1)
        · rw [if_neg hir] at hi hij
          rw [if_neg hjr] at hj hij
          exact huniq i j i0 i1 j0 j1 hi hj hij

theorem tlb_unique_run :
    ∀ (calls : List Call) (pt : TwoLevelPageTable),
      (∀ i j, 0 ≤ i → i < 16 → 0 ≤ j → j < 16 →
        (pt.tlb i).valid = true → (pt.tlb j).valid = true →
        (pt.tlb i).vpn = (pt.tlb j).vpn → i = j) →
      ∀ i j, 0 ≤ i → i < 16 → 0 ≤ j → j < 16 →
        ((run_calls pt calls).tlb i).valid = true →
        ((run_calls pt calls).tlb j).valid = true →
        ((run_calls pt calls).tlb i).vpn = ((run_calls pt calls).tlb j).vpn → i = j := by
  intro calls
  induction calls with
  | nil => intro pt h; exact h
  | cons c rest ih =>
    intro pt h
    exact ih (apply_call pt c) (tlb_unique_step pt c h)

/-- Claim C17.  In every state reached from `init_page_table` by `map_page`
and `translate_address` calls, no two valid TLB entries hold the same VPN. -/
theorem tlb_uniqueness (pt : TwoLevelPageTable) (hreach : Reachable pt) :
    ∀ i j, 0 ≤ i → i < 16 → 0 ≤ j → j < 16 →
      (pt.tlb i).valid = true → (pt.tlb j).valid = true →
      (pt.tlb i).vpn = (pt.tlb j).vpn → i = j := by
  obtain ⟨uninit, calls, _, rfl⟩ := hreach
  apply tlb_unique_run
  intro i j i0 i1 _ _ hi
  rw [(init_page_table_tlb_invalid uninit i i0 i1).1] at hi
  exact absurd hi (by simp)

/-- The example state `cached_example` is reachable. -/
theorem cached_example_reachable : Reachable cached_example := by
  refine ⟨stale_tlb, [Call.map 0x1000 5, Call.translate 0x1000], ?_, rfl⟩
  intro c hc
  simp only [List.mem_cons, List.mem_singleton, List.not_mem_nil, or_false] at hc
  rcases hc with rfl | rfl <;> simp [Call.fits]

/-- Witness for C17 at the reachable state `cached_example`. -/
theorem tlb_uniqueness_witness :
    Reachable cached_example ∧
    ∀ i j, 0 ≤ i → i < 16 → 0 ≤ j → j < 16 →
      (cached_example.tlb i).valid = true → (cached_example.tlb j).valid = true →
      (cached_example.tlb i).vpn = (cached_example.tlb j).vpn → i = j :=
  ⟨cached_example_reachable, tlb_uniqueness cached_example cached_example_reachable⟩

/-! ## The TLB as a transparent cache -/

/-- Two invariants of a run without remapping.  Every present PTE was written
by a `map_page` call of the history for that very page and frame; every valid
TLB entry agrees with the PTE of its VPN. -/
theorem transparent_run :
    ∀ (rest pre : List Call) (pt : TwoLevelPageTable),
      (∀ o t i, pt.outer_table o = some t → (t.entries i).present = true →
        ∃ va f, Call.map va f ∈ pre ∧ (extract_address_components va).1 = o ∧
          (extract_address_components va).2.1 = i ∧ (t.entries i).frame_number = f) →
      (∀ k, 0 ≤ k → k < 16 → (pt.tlb k).valid = true →
        ∃ t, pt.outer_table ((pt.tlb k).vpn / 2 ^ 10) = some t ∧
          (t.entries ((pt.tlb k).vpn % 2 ^ 10)).present = true ∧
          (t.entries ((pt.tlb k).vpn % 2 ^ 10)).frame_number = (pt.tlb k).frame_number) →
      (∀ va1 f1 va2 f2, Call.map va1 f1 ∈ pre ++ rest → Call.map va2 f2 ∈ pre ++ rest →
        (extract_address_components va1).1 = (extract_address_components va2).1 →
        (extract_address_components va1).2.1 = (extract_address_components va2).2.1 →
        f1 = f2) →
      ∀ k, 0 ≤ k → k < 16 → ((run_calls pt rest).tlb k).valid = true →
        ∃ t, (run_calls pt rest).outer_table (((run_calls pt rest).tlb k).vpn / 2 ^ 10)
            = some t ∧
          (t.entries (((run_calls pt rest).tlb k).vpn % 2 ^ 10)).present = true ∧
          (t.entries (((run_calls pt rest).tlb k).vpn % 2 ^ 10)).frame_number =
            ((run_calls pt rest).tlb k).frame_number := by
  intro rest
  induction rest with
  | nil =>
    intro pre pt _ htlb _
    exact htlb
  | cons c rest ih =>
    intro pre pt hpte htlb hnoremap
    have hsplit : pre ++ c :: rest = (pre ++ [c]) ++ rest := by simp
    rw [hsplit] at hnoremap
    have hrun : run_calls pt (c :: rest) = run_calls (apply_call pt c) rest := rfl
    rw [hrun]
    cases c with
    | map va2 f2 =>
      have hout := map_page_outer pt va2 f2
      apply ih (pre ++ [Call.map va2 f2]) (apply_call pt (Call.map va2 f2)) ?_ ?_ hnoremap
      · -- present PTEs still come from the history
        intro o t i ht hpres
        simp only [apply_call] at ht
        rw [hout] at ht
        by_cases ho : o = (extract_address_components va2).1
        · rw [ho, Function.update_same] at ht
          injection ht with ht
          subst ht
          by_cases hi : i = (extract_address_components va2).2.1
          · subst hi
            refine ⟨va2, f2, by simp, ho.symm, rfl, ?_⟩
            simp only [Function.update_same]
          · simp only [Function.update_noteq hi] at hpres ⊢
            cases hcase : pt.outer_table (extract_address_components va2).1 with
            | none =>
              rw [hcase] at hpres
              exact absurd hpres (by simp [zeroed_inner_table])
            | some t0 =>
              rw [hcase] at hpres
              simp only [hcase]
              obtain ⟨va, f, hmem, h1, h2, h3⟩ := hpte _ t0 i hcase hpres
              exact ⟨va, f, List.mem_append_left _ hmem, by rw [h1, ho], h2, h3⟩
        · rw [Function.update_noteq ho] at ht
          obtain ⟨va, f, hmem, h1, h2, h3⟩ := hpte o t i ht hpres
          exact ⟨va, f, List.mem_append_left _ hmem, h1, h2, h3⟩
      · -- valid TLB entries still agree with the page table
        intro k k0 k1 hv
        obtain ⟨t, ht, hpres, hfr⟩ := htlb k k0 k1 hv
        simp only [apply_call]
        rw [hout]
        show ∃ t', Function.update pt.outer_table _ _ ((pt.tlb k).vpn / 2 ^ 10) = some t' ∧
          (t'.entries ((pt.tlb k).vpn % 2 ^ 10)).present = true ∧
          (t'.entries ((pt.tlb k).vpn % 2 ^ 10)).frame_number = (pt.tlb k).frame_number
        by_cases ho : (pt.tlb k).vpn / 2 ^ 10 = (extract_address_components va2).1
        · rw [ho, Function.update_same]
          refine ⟨_, rfl, ?_⟩
          rw [ho] at ht
          simp only [ht]
          by_cases hi : (pt.tlb k).vpn % 2 ^ 10 = (extract_address_components va2).2.1
          · rw [hi, Function.update_same]
            refine ⟨rfl, ?_⟩
            rw [hi] at hpres hfr
            obtain ⟨va, f, hmem, h1, h2, h3⟩ := hpte _ t _ ht hpres
            have := hnoremap va f va2 f2
              (List.mem_append_left _ (List.mem_append_left _ hmem))
              (List.mem_append_left _ (by simp)) h1 h2
            simp only
            rw [← this, ← h3, hfr]
          · rw [Function.update_noteq hi]
            exact ⟨hpres, hfr⟩
        · rw [Function.update_noteq ho]
          exact ⟨t, ht, hpres, hfr⟩
    | translate va2 =>
      obtain ⟨hout, heff⟩ := translate_address_tlb_effect pt va2
      apply ih (pre ++ [Call.translate va2]) (apply_call pt (Call.translate va2)) ?_ ?_
        hnoremap
      · intro o t i ht hpres
        simp only [apply_call] at ht
        rw [hout] at ht
        obtain ⟨va, f, hmem, h1, h2, h3⟩ := hpte o t i ht hpres
        exact ⟨va, f, List.mem_append_left _ hmem, h1, h2, h3⟩
      · intro k k0 k1 hv
        simp only [apply_call] at hv ⊢
        rw [hout]
        rcases heff with hsame | ⟨_, t, ht, hpres, hnew⟩
        · rw [(hsame k).1] at hv
          rw [(hsame k).2.1, (hsame k).2.2]
          exact htlb k k0 k1 hv
        · rw [hnew k] at hv ⊢
          by_cases hk : k = replace_index pt.tlb
          · rw [if_pos hk]
            have hidx := indices_of_vpn va2
            simp only
            rw [← hidx.1, ← hidx.2]
            exact ⟨t, ht, hpres, rfl⟩
          · rw [if_neg hk] at hv ⊢
            exact htlb k k0 k1 hv

/-- Claim C18.  After any sequence of `map_page` and `translate_address` calls
from `init_page_table` in which no page is mapped to two different frame
numbers, every valid TLB entry agrees with the page table (the PTE of its VPN
is present with the same frame number), and `translate_address` on any
address returns the fault flag and the physical address of a plain two-level
table walk without TLB. -/
theorem tlb_transparent (uninit : Int → TLBEntry) (calls : List Call) (va : Nat)
    (hnoremap : ∀ va1 f1 va2 f2, Call.map va1 f1 ∈ calls → Call.map va2 f2 ∈ calls →
      (extract_address_components va1).1 = (extract_address_components va2).1 →
      (extract_address_components va1).2.1 = (extract_address_components va2).2.1 →
      f1 = f2) :
    (∀ k, 0 ≤ k → k < 16 →
      ((run_calls (init_page_table uninit) calls).tlb k).valid = true →
      ∃ t, (run_calls (init_page_table uninit) calls).outer_table
            (((run_calls (init_page_table uninit) calls).tlb k).vpn / 2 ^ 10) = some t ∧
        (t.entries (((run_calls (init_page_table uninit) calls).tlb k).vpn % 2 ^ 10)).present
          = true ∧
        (t.entries
            (((run_calls (init_page_table uninit) calls).tlb k).vpn % 2 ^ 10)).frame_number =
          ((run_calls (init_page_table uninit) calls).tlb k).frame_number) ∧
    (translate_address (run_calls (init_page_table uninit) calls) va).page_fault =
      (plain_table_walk (run_calls (init_page_table uninit) calls) va).2 ∧
    (translate_address (run_calls (init_page_table uninit) calls) va).physical =
      (plain_table_walk (run_calls (init_page_table uninit) calls) va).1 := by
  have hagree := transparent_run calls [] (init_page_table uninit)
    (by intro o t i ht; simp [init_page_table] at ht)
    (by
      intro k k0 k1 hv
      rw [(init_page_table_tlb_invalid uninit k k0 k1).1] at hv
      exact absurd hv (by simp))
    (by simpa using hnoremap)
  refine ⟨hagree, ?_⟩
  generalize run_calls (init_page_table uninit) calls = pt at hagree
  rcases tlb_lookup_spec pt (vpn_of va) with ⟨hmiss, _⟩ | ⟨m, m0, m1, hv, hp, _, hhit⟩
  · cases ho : pt.outer_table (extract_address_components va).1 with
    | none =>
      rw [translate_address_no_inner pt _ va hmiss ho]
      simp only [plain_table_walk, ho, and_self]
    | some t =>
      by_cases hpres : (t.entries (extract_address_components va).2.1).present = true
      · rw [translate_address_walk pt _ va t hmiss ho hpres]
        simp only [plain_table_walk, ho, hpres, if_true, OFFSET_BITS, and_self]
      · have hnp : (t.entries (extract_address_components va).2.1).present = false := by
          simpa using hpres
        rw [translate_address_not_present pt _ va t hmiss ho hnp]
        simp [plain_table_walk, ho, hnp]
  · obtain ⟨t, ht, hpres, hfr⟩ := hagree m m0 m1 hv
    have hidx := indices_of_vpn va
    rw [hp, ← hidx.1] at ht
    rw [hp, ← hidx.2] at hpres hfr
    rw [translate_address_hit pt _ va _ hhit]
    simp only [plain_table_walk, ht, hpres, if_true, hfr, OFFSET_BITS, and_self]

/-- Witness for C18: pages 0 and 1 are mapped once each and page 1 is
translated; a later translation of `0x1ABC` agrees with the plain walk. -/
theorem tlb_transparent_witness :
    (translate_address (run_calls (init_page_table stale_tlb)
      [Call.map 0 100, Call.map 0x1000 101, Call.translate 0x1234]) 0x1ABC).page_fault =
      (plain_table_walk (run_calls (init_page_table stale_tlb)
        [Call.map 0 100, Call.map 0x1000 101, Call.translate 0x1234]) 0x1ABC).2 ∧
    (translate_address (run_calls (init_page_table stale_tlb)
      [Call.map 0 100, Call.map 0x1000 101, Call.translate 0x1234]) 0x1ABC).physical =
      (plain_table_walk (run_calls (init_page_table stale_tlb)
        [Call.map 0 100, Call.map 0x1000 101, Call.translate 0x1234]) 0x1ABC).1 := by
  have hnoremap : ∀ va1 f1 va2 f2,
      Call.map va1 f1 ∈ [Call.map 0 100, Call.map 0x1000 101, Call.translate 0x1234] →
      Call.map va2 f2 ∈ [Call.map 0 100, Call.map 0x1000 101, Call.translate 0x1234] →
      (extract_address_components va1).1 = (extract_address_components va2).1 →
      (extract_address_components va1).2.1 = (extract_address_components va2).2.1 →
      f1 = f2 := by
    intro va1 f1 va2 f2 h1 h2
    simp only [List.mem_cons, List.mem_singleton, List.not_mem_nil, or_false,
      Call.map.injEq, reduceCtorEq] at h1 h2
    rcases h1 with ⟨rfl, rfl⟩ | ⟨rfl, rfl⟩ <;> rcases h2 with ⟨rfl, rfl⟩ | ⟨rfl, rfl⟩ <;>
      decide
  exact (tlb_transparent stale_tlb _ 0x1ABC hnoremap).2

/-! ## Clock replacement: the scenario of the specification -/

/-- Claim C13.  From `init_clock 4`, the events (1,R) (2,R) (3,W) (4,R) (1,R)
(2,W) (5,R) give the fault counts 1, 2, 3, 4, 4, 4, 5 after the successive
accesses (faults on the first access to pages 1 to 4 and on page 5, hits on the
second accesses to pages 1 and 2).  Before the last access no replacement has
happened and frame 0 holds page 1, referenced and clean; `find_victim` then
picks frame 0; at the end `page_faults = 5`, `page_replacements = 1`,
`disk_writes = 0` and the frames hold pages 5, 2, 3, 4. -/
theorem clock_scenario (uninit : Int → Frame) (fuel : Nat) (hfuel : 5 ≤ fuel) :
    [0, 1, 2, 3, 4, 5, 6, 7].map (fun k =>
        (run_accesses fuel (init_clock 4 uninit) (scenario_events.take k)).map
          (fun c => c.page_faults)) =
      [some 0, some 1, some 2, some 3, some 4, some 4, some 4, some 5] ∧
    ∃ before final,
      run_accesses fuel (init_clock 4 uninit) (scenario_events.take 6) = some before ∧
      run_accesses fuel (init_clock 4 uninit) scenario_events = some final ∧
      before.page_replacements = 0 ∧ before.disk_writes = 0 ∧
      before.frames 0 = ⟨1, true, false⟩ ∧
      (find_victim fuel { before with page_faults := before.page_faults + 1 }).map Prod.fst
        = some 0 ∧
      final.page_faults = 5 ∧ final.page_replacements = 1 ∧ final.disk_writes = 0 ∧
      (final.frames 0).page_number = 5 ∧ (final.frames 1).page_number = 2 ∧
      (final.frames 2).page_number = 3 ∧ (final.frames 3).page_number = 4 := by
  obtain ⟨m, rfl⟩ : ∃ m, fuel = m + 5 := ⟨fuel - 5, by omega⟩
  have t1 : Int.tmod 1 4 = 1 := by decide
  have t2 : Int.tmod 2 4 = 2 := by decide
  have t3 : Int.tmod 3 4 = 3 := by decide
  have t4 : Int.tmod 4 4 = 0 := by decide
  simp [scenario_events, run_accesses, access_page, find_page, find_page_loop,
    find_empty_frame, find_empty_frame_loop, find_victim, clear_and_advance, load_page,
    count_replacement, init_clock, init_clock_loop, Function.update_apply, t1, t2, t3, t4]

/-- Witness for C13 with fuel for exactly five iterations of the sweep. -/
theorem clock_scenario_witness :
    (5 : Nat) ≤ 5 ∧
    (run_accesses 5 (init_clock 4 stale_frames) scenario_events).map
      (fun c => c.page_faults) = some 5 := by
  obtain ⟨_, before, final, _, hrun, _, _, _, _, hpf, _⟩ :=
    clock_scenario stale_frames 5 (le_refl 5)
  exact ⟨le_refl 5, by rw [hrun]; exact congrArg some hpf⟩

/-! ## Clock replacement: length of the sweep -/

theorem swept_hand_clear (clock : ClockPageReplacement)
    (h0 : 0 ≤ clock.clock_hand) (h1 : clock.clock_hand < clock.num_frames)
    (k : Nat) (hk : (k : Int) ≤ clock.num_frames)
    (hstop : (k : Int) < clock.num_frames →
      (clock.frames ((clock.clock_hand + k) % clock.num_frames)).reference_bit = false) :
    ((swept clock k).frames (swept clock k).clock_hand).reference_bit = false := by
  by_cases hlt : (k : Int) < clock.num_frames
  · obtain ⟨r0, r1, rc⟩ :=
      wrap_range clock.num_frames clock.clock_hand k h0 h1 (by omega) hlt
    simp only [swept]
    rw [if_neg (by rw [rc]; omega)]
    exact hstop hlt
  · have hkn : (k : Int) = clock.num_frames := by omega
    have hpos := wrap_cyclic_pos clock.num_frames clock.clock_hand clock.clock_hand h0 h1 h0 h1
    have hhand : (clock.clock_hand + k) % clock.num_frames = clock.clock_hand := by
      rw [hkn, Int.add_emod_self]
      exact Int.emod_eq_of_lt h0 h1
    simp only [swept, hhand]
    rw [if_pos ⟨h0, h1, by rw [hkn]; exact hpos.2.1⟩]

/-- While the first `k` frames of the cyclic order all have their reference bit
set, the first `k` frames cleared by the loop are those frames, in order. -/
theorem find_victim_cleared_sweep (clock : ClockPageReplacement)
    (h0 : 0 ≤ clock.clock_hand) (h1 : clock.clock_hand < clock.num_frames) :
    ∀ k : Nat, (k : Int) ≤ clock.num_frames →
      (∀ i, 0 ≤ i → i < clock.num_frames →
        cyclic_pos clock.num_frames clock.clock_hand i < k →
        (clock.frames i).reference_bit = true) →
      ∀ fuel, find_victim_cleared (fuel + k) clock =
        (List.range k).map (fun j : Nat => (clock.clock_hand + (j : Int)) % clock.num_frames)
          ++ find_victim_cleared fuel (swept clock k) := by
  intro k
  induction k with
  | zero =>
    intro _ _ fuel
    simp [swept_zero clock h0 h1]
  | succ k ih =>
    intro hk hset fuel
    have hk1 : (k : Int) < clock.num_frames := by push_cast at hk; omega
    have hstep := ih (by omega)
      (fun i a b c => hset i a b (by push_cast; omega)) (fuel + 1)
    have hfuel : fuel + (k + 1) = fuel + 1 + k := by omega
    rw [hfuel, hstep]
    obtain ⟨r0, r1, rc⟩ :=
      wrap_range clock.num_frames clock.clock_hand k h0 h1 (by omega) hk1
    have hbit : ((swept clock k).frames (swept clock k).clock_hand).reference_bit = true := by
      have hnot : ¬ (0 ≤ (clock.clock_hand + k) % clock.num_frames ∧
          (clock.clock_hand + k) % clock.num_frames < clock.num_frames ∧
          cyclic_pos clock.num_frames clock.clock_hand
            ((clock.clock_hand + k) % clock.num_frames) < k) := by
        rw [rc]; omega
      simp only [swept, if_neg hnot]
      exact hset _ r0 r1 (by rw [rc]; push_cast; omega)
    have hcast : ((k + 1 : Nat) : Int) = (k : Int) + 1 := by push_cast; rfl
    have hhand : (swept clock k).clock_hand = (clock.clock_hand + k) % clock.num_frames := rfl
    rw [find_victim_cleared, hbit, hcast, ← clear_and_advance_swept clock k h0 h1 hk1,
      List.range_succ, List.map_append, hhand]
    simp

/-- The run of `find_victim` together with its trace: the `k` frames passed
over are the first `k` of the cyclic order, `k + 1` iterations are made, and
no smaller number of iterations reaches the `return`. -/
theorem find_victim_trace (clock : ClockPageReplacement) (fuel : Nat)
    (hn : 1 ≤ clock.num_frames)
    (h0 : 0 ≤ clock.clock_hand) (h1 : clock.clock_hand < clock.num_frames)
    (hfuel : clock.num_frames.toNat + 1 ≤ fuel) :
    ∃ k : Nat, (k : Int) ≤ clock.num_frames ∧
      (∀ i, 0 ≤ i → i < clock.num_frames →
        cyclic_pos clock.num_frames clock.clock_hand i < k →
        (clock.frames i).reference_bit = true) ∧
      find_victim_cleared fuel clock =
        (List.range k).map
          (fun j : Nat => (clock.clock_hand + (j : Int)) % clock.num_frames) ∧
      find_victim fuel clock =
        some ((clock.clock_hand + k) % clock.num_frames,
          { swept clock k with
            clock_hand :=
              Int.tmod ((clock.clock_hand + k) % clock.num_frames + 1) clock.num_frames }) ∧
      find_victim (k + 1) clock = find_victim fuel clock ∧
      find_victim k clock = none := by
  obtain ⟨k, hk, hset, hstop, hres⟩ := find_victim_result clock fuel hn h0 h1 hfuel
  have hclear := swept_hand_clear clock h0 h1 k hk hstop
  refine ⟨k, hk, hset, ?_, hres, ?_, ?_⟩
  · have hf : fuel = (fuel - k - 1) + 1 + k := by omega
    rw [hf, find_victim_cleared_sweep clock h0 h1 k hk hset, find_victim_cleared, hclear]
    simp
  · rw [hres]
    exact find_victim_after_sweep clock h0 h1 k hk hset hclear (k + 1) (le_refl _)
  · have := find_victim_sweep clock h0 h1 k hk hset 0
    rw [Nat.zero_add] at this
    rw [this]
    rfl

theorem hand_iterate (n h : Int) (h0 : 0 ≤ h) (h1 : h < n) :
    ∀ m : Nat, Nat.iterate (fun x => Int.tmod (x + 1) n) m h = (h + m) % n := by
  intro m
  induction m with
  | zero =>
    simp only [Nat.cast_zero, add_zero]
    exact (Int.emod_eq_of_lt h0 h1).symm
  | succ m ih =>
    rw [Function.iterate_succ_apply', ih]
    have hnn : 0 ≤ (h + m) % n := Int.emod_nonneg _ (by omega)
    rw [Int.tmod_eq_emod (by omega) (by omega), Int.emod_add_emod]
    push_cast
    rw [add_assoc]


/-- Claim C14.  With at least one frame and the hand inside the table,
`find_victim` returns after `c + 1` iterations of its loop, where `c` is the
number of reference bits it clears: that many iterations reach the `return`
and `c` do not.  Each iteration inspects one frame, and `c ≤ num_frames`, so
at most `num_frames + 1` frames are inspected, fewer than two full sweeps.
The frames cleared are pairwise distinct frames of the table, so no bit is
cleared twice; each had its bit set before and has it clear afterwards. -/
theorem find_victim_termination (clock : ClockPageReplacement) (fuel : Nat)
    (hn : 1 ≤ clock.num_frames)
    (h0 : 0 ≤ clock.clock_hand) (h1 : clock.clock_hand < clock.num_frames)
    (hfuel : clock.num_frames.toNat + 1 ≤ fuel) :
    ∃ victim clock1,
      find_victim fuel clock = some (victim, clock1) ∧
      find_victim ((find_victim_cleared fuel clock).length + 1) clock =
        some (victim, clock1) ∧
      find_victim (find_victim_cleared fuel clock).length clock = none ∧
      ((find_victim_cleared fuel clock).length : Int) + 1 ≤ clock.num_frames + 1 ∧
      ((find_victim_cleared fuel clock).length : Int) + 1 ≤ 2 * clock.num_frames ∧
      (find_victim_cleared fuel clock).Nodup ∧
      ∀ i ∈ find_victim_cleared fuel clock,
        0 ≤ i ∧ i < clock.num_frames ∧ (clock.frames i).reference_bit = true ∧
        (clock1.frames i).reference_bit = false := by
  obtain ⟨k, hk, hset, hcleared, hres, hexact, hless⟩ :=
    find_victim_trace clock fuel hn h0 h1 hfuel
  have hlen : (find_victim_cleared fuel clock).length = k := by
    rw [hcleared, List.length_map, List.length_range]
  refine ⟨_, _, hres, ?_, ?_, ?_, ?_, ?_, ?_⟩
  · rw [hlen, hexact, hres]
  · rw [hlen, hless]
  · rw [hlen]; omega
  · rw [hlen]; omega
  · rw [hcleared]
    apply List.Nodup.map_on _ (List.nodup_range k)
    intro x hx y hy hxy
    rw [List.mem_range] at hx hy
    simp only at hxy
    rw [wrap_eq clock.num_frames clock.clock_hand x h0 h1 (by omega) (by omega),
      wrap_eq clock.num_frames clock.clock_hand y h0 h1 (by omega) (by omega)] at hxy
    split_ifs at hxy <;> omega
  · intro i hi
    rw [hcleared, List.mem_map] at hi
    obtain ⟨j, hj, rfl⟩ := hi
    rw [List.mem_range] at hj
    obtain ⟨r0, r1, rc⟩ :=
      wrap_range clock.num_frames clock.clock_hand j h0 h1 (by omega) (by omega)
    refine ⟨r0, r1, hset _ r0 r1 (by rw [rc]; omega), ?_⟩
    simp only [swept]
    rw [if_pos ⟨r0, r1, by rw [rc]; omega⟩]

/-- Witness for C14 on the table `example_frames` with the hand on frame 0. -/
theorem find_victim_termination_witness :
    ∃ victim clock1,
      find_victim 4 ⟨example_frames, 3, 0, 0, 0, 0⟩ = some (victim, clock1) ∧
      ((find_victim_cleared 4 ⟨example_frames, 3, 0, 0, 0, 0⟩).length : Int) + 1 ≤ 3 + 1 ∧
      (find_victim_cleared 4 ⟨example_frames, 3, 0, 0, 0, 0⟩).Nodup := by
  obtain ⟨victim, clock1, hres, -, -, hlen, -, hnodup, -⟩ :=
    find_victim_termination ⟨example_frames, 3, 0, 0, 0, 0⟩ 4
      (by decide) (by decide) (by decide) (by decide)
  exact ⟨victim, clock1, hres, hlen, hnodup⟩

/-! ## Clock replacement: the hand stays inside the table -/

/-- Induction along the driver loop: a property that every access preserves
(on a table with a frame and the hand inside it, for pages satisfying `Q`)
holds at the end of every run, and every run returns. -/
theorem run_accesses_induct (fuel : Nat) (P : ClockPageReplacement → Prop) (Q : Int → Prop)
    (hstep : ∀ (clock clock1 : ClockPageReplacement) (page : Int) (is_write : Bool),
      1 ≤ clock.num_frames → 0 ≤ clock.clock_hand → clock.clock_hand < clock.num_frames →
      Q page → P clock → access_page fuel clock page is_write = some clock1 → P clock1) :
    ∀ (events : List (Int × Bool)) (clock : ClockPageReplacement),
      1 ≤ clock.num_frames → 0 ≤ clock.clock_hand → clock.clock_hand < clock.num_frames →
      clock.num_frames.toNat + 1 ≤ fuel → (∀ e ∈ events, Q e.1) → P clock →
      ∃ clock1, run_accesses fuel clock events = some clock1 ∧
        clock1.num_frames = clock.num_frames ∧
        0 ≤ clock1.clock_hand ∧ clock1.clock_hand < clock1.num_frames ∧ P clock1 := by
  intro events
  induction events with
  | nil =>
    intro clock _ h0 h1 _ _ hP
    exact ⟨clock, rfl, rfl, h0, h1, hP⟩
  | cons e rest ih =>
    intro clock hn h0 h1 hfuel hQ hP
    obtain ⟨page, is_write⟩ := e
    obtain ⟨clock1, hres, hnum, g0, g1, -⟩ :=
      access_page_effect fuel clock page is_write hn h0 h1 hfuel
    have hP1 := hstep clock clock1 page is_write hn h0 h1 (hQ (page, is_write) (by simp)) hP hres
    obtain ⟨clock2, hrun, hnum2, k0, k1, hP2⟩ :=
      ih clock1 (by omega) g0 (by omega) (by rw [hnum]; exact hfuel)
        (fun e he => hQ e (List.mem_cons_of_mem _ he)) hP1
    exact ⟨clock2, by simp only [run_accesses, hres, hrun], by omega, k0, k1, hP2⟩

/-- How one access moves the hand: not at all when the page is resident or a
frame is empty; otherwise `find_victim` runs and leaves the hand where one
step `x ↦ (x + 1) mod num_frames` per iteration of its loop takes it. -/
theorem access_page_hand (fuel : Nat) (clock : ClockPageReplacement) (page : Int)
    (is_write : Bool) (hn : 1 ≤ clock.num_frames)
    (h0 : 0 ≤ clock.clock_hand) (h1 : clock.clock_hand < clock.num_frames)
    (hfuel : clock.num_frames.toNat + 1 ≤ fuel) :
    ∃ clock1, access_page fuel clock page is_write = some clock1 ∧
      ((find_page clock page ≠ -1 ∨ find_empty_frame clock ≠ -1) →
        clock1.clock_hand = clock.clock_hand) ∧
      ((find_page clock page = -1 ∧ find_empty_frame clock = -1) →
        ∃ victim clock2,
          find_victim fuel { clock with page_faults := clock.page_faults + 1 } =
            some (victim, clock2) ∧
          clock1.clock_hand = clock2.clock_hand ∧
          clock2.clock_hand =
            Nat.iterate (fun x => Int.tmod (x + 1) clock.num_frames)
              ((find_victim_cleared fuel
                { clock with page_faults := clock.page_faults + 1 }).length + 1)
              clock.clock_hand) := by
  by_cases hp : find_page clock page = -1
  · by_cases he : find_empty_frame clock = -1
    · obtain ⟨k, hk, -, hcleared, hres, -, -⟩ :=
        find_victim_trace { clock with page_faults := clock.page_faults + 1 } fuel hn h0 h1 hfuel
      refine ⟨_, access_page_evict fuel clock page is_write hp he _ _ hres, ?_, ?_⟩
      · rintro (h | h)
        · exact absurd hp h
        · exact absurd he h
      · intro _
        refine ⟨_, _, hres, rfl, ?_⟩
        rw [hcleared, List.length_map, List.length_range,
          hand_iterate clock.num_frames clock.clock_hand h0 h1]
        have hnn : 0 ≤ (clock.clock_hand + k) % clock.num_frames :=
          Int.emod_nonneg _ (by omega)
        simp only
        rw [Int.tmod_eq_emod (by omega) (by omega), Int.emod_add_emod]
        push_cast
        rw [add_assoc]
    · refine ⟨_, access_page_fill fuel clock page is_write hp he, fun _ => rfl, ?_⟩
      rintro ⟨_, h⟩
      exact absurd h he
  · refine ⟨_, access_page_hit fuel clock page is_write hp, fun _ => rfl, ?_⟩
    rintro ⟨h, _⟩
    exact absurd h hp

/-- Claim C15.  From `init_clock n` with `1 ≤ n ≤ 100`, every sequence of
`access_page` calls runs to the end and in the state reached the hand lies in
`[0, num_frames)`.  From such a state an access leaves the hand unchanged
unless it calls `find_victim` (page not resident, no empty frame), and then
the hand is the result of one step `x ↦ (x + 1) mod num_frames` per iteration
of the loop of `find_victim`, nothing else touching it. -/
theorem clock_hand_range (n : Int) (uninit : Int → Frame) (events : List (Int × Bool))
    (fuel : Nat) (hn : 1 ≤ n ∧ n ≤ MAX_FRAMES) (hfuel : n.toNat + 1 ≤ fuel) :
    ∃ clock, run_accesses fuel (init_clock n uninit) events = some clock ∧
      clock.num_frames = n ∧ 0 ≤ clock.clock_hand ∧ clock.clock_hand < clock.num_frames ∧
      ∀ (page : Int) (is_write : Bool),
        ∃ clock1, access_page fuel clock page is_write = some clock1 ∧
          ((find_page clock page ≠ -1 ∨ find_empty_frame clock ≠ -1) →
            clock1.clock_hand = clock.clock_hand) ∧
          ((find_page clock page = -1 ∧ find_empty_frame clock = -1) →
            ∃ victim clock2,
              find_victim fuel { clock with page_faults := clock.page_faults + 1 } =
                some (victim, clock2) ∧
              clock1.clock_hand = clock2.clock_hand ∧
              clock2.clock_hand =
                Nat.iterate (fun x => Int.tmod (x + 1) clock.num_frames)
                  ((find_victim_cleared fuel
                    { clock with page_faults := clock.page_faults + 1 }).length + 1)
                  clock.clock_hand) := by
  obtain ⟨clock, hrun, hnum, g0, g1, -⟩ :=
    run_accesses_induct fuel (fun _ => True) (fun _ => True)
      (fun _ _ _ _ _ _ _ _ _ _ => trivial) events (init_clock n uninit) hn.1 (le_refl _)
      (by simp only [init_clock]; omega) hfuel (fun _ _ => trivial) trivial
  refine ⟨clock, hrun, hnum, g0, g1, ?_⟩
  intro page is_write
  exact access_page_hand fuel clock page is_write (by omega) g0 g1
    (by rw [hnum]; exact hfuel)

/-- Witness for C15: three frames, six references. -/
theorem clock_hand_range_witness :
    ∃ clock, run_accesses 4 (init_clock 3 stale_frames)
        [(1, false), (2, true), (3, false), (4, false), (1, true), (5, false)] = some clock ∧
      0 ≤ clock.clock_hand ∧ clock.clock_hand < clock.num_frames := by
  obtain ⟨clock, hrun, -, g0, g1, -⟩ :=
    clock_hand_range 3 stale_frames
      [(1, false), (2, true), (3, false), (4, false), (1, true), (5, false)] 4
      ⟨by decide, by decide⟩ (by decide)
  exact ⟨clock, hrun, g0, g1⟩

/-! ## Clock replacement: counter accounting -/

theorem occupied_count_of_filled (clock : ClockPageReplacement) (k : Nat)
    (hk : (k : Int) ≤ clock.num_frames)
    (hocc : ∀ i : Int, 0 ≤ i → i < k → (clock.frames i).page_number ≠ -1)
    (hemp : ∀ i : Int, (k : Int) ≤ i → i < clock.num_frames →
      (clock.frames i).page_number = -1) :
    occupied_count clock = k := by
  have hcount : ∀ m : Nat, (m : Int) ≤ clock.num_frames →
      (List.range m).countP
        (fun i : Nat => decide ((clock.frames (i : Int)).page_number ≠ -1)) = min k m := by
    intro m
    induction m with
    | zero => intro _; simp
    | succ m ih =>
      intro hm
      rw [List.range_succ, List.countP_append, List.countP_singleton, ih (by push_cast at hm; omega)]
      by_cases hlt : m < k
      · have := hocc m (by omega) (by omega)
        simp only [this, ne_eq, not_false_eq_true, decide_True, if_true]
        omega
      · have := hemp m (by omega) (by push_cast at hm; omega)
        simp only [this, ne_eq, not_true_eq_false, decide_False, Bool.false_eq_true, if_false]
        omega
  unfold occupied_count
  rw [hcount _ (by omega)]
  omega

/-- One access on a non-negative page keeps the accounting: the occupied
frames form a prefix of length `k`, `page_faults = page_replacements + k` and
`disk_writes ≤ page_replacements`. -/
theorem accounting_step (fuel : Nat) (clock clock1 : ClockPageReplacement) (page : Int)
    (is_write : Bool) (hn : 1 ≤ clock.num_frames)
    (h0 : 0 ≤ clock.clock_hand) (h1 : clock.clock_hand < clock.num_frames)
    (hfuel : clock.num_frames.toNat + 1 ≤ fuel) (hpage : 0 ≤ page)
    (hinv : ∃ k : Nat, (k : Int) ≤ clock.num_frames ∧
      (∀ i : Int, 0 ≤ i → i < k → (clock.frames i).page_number ≠ -1) ∧
      (∀ i : Int, (k : Int) ≤ i → i < clock.num_frames →
        (clock.frames i).page_number = -1) ∧
      clock.page_faults = clock.page_replacements + k ∧
      clock.disk_writes ≤ clock.page_replacements)
    (hres : access_page fuel clock page is_write = some clock1) :
    ∃ k : Nat, (k : Int) ≤ clock1.num_frames ∧
      (∀ i : Int, 0 ≤ i → i < k → (clock1.frames i).page_number ≠ -1) ∧
      (∀ i : Int, (k : Int) ≤ i → i < clock1.num_frames →
        (clock1.frames i).page_number = -1) ∧
      clock1.page_faults = clock1.page_replacements + k ∧
      clock1.disk_writes ≤ clock1.page_replacements := by
  obtain ⟨k, hk, hocc, hemp, hpf, hdw⟩ := hinv
  by_cases hp : find_page clock page = -1
  · rcases find_page_spec clock (-1) with ⟨hnone, hfull⟩ | ⟨r0, r1, r2, r3⟩
    · -- no empty frame: eviction
      rw [← find_empty_frame_eq] at hnone
      have hkn : (k : Int) = clock.num_frames := by
        by_contra hne
        exact hfull k (by omega) (by omega) (hemp k (le_refl _) (by omega))
      obtain ⟨victim, clock2, hv, v0, v1, hkeep, -, -, hnum, gpf, gpr, gdw⟩ :=
        find_victim_keeps { clock with page_faults := clock.page_faults + 1 } fuel
          hn h0 h1 hfuel
      rw [access_page_evict fuel clock page is_write hp hnone victim clock2 hv] at hres
      injection hres with hres
      subst hres
      refine ⟨k, ?_, ?_, ?_, ?_, ?_⟩
      · simp only [load_page, count_replacement, hnum]
        exact hk
      · intro i i0 i1
        simp only [load_page, count_replacement]
        by_cases hi : i = victim
        · rw [hi, Function.update_same]
          simp only
          omega
        · rw [Function.update_noteq hi, (hkeep i).1]
          exact hocc i i0 i1
      · intro i i0 i1
        simp only [load_page, count_replacement, hnum] at i1
        omega
      · simp only [load_page, count_replacement, gpf, gpr]
        omega
      · simp only [load_page, count_replacement, gdw, gpr]
        split_ifs <;> omega
    · -- an empty frame: it is frame `k`
      rw [← find_empty_frame_eq] at r0 r1 r2 r3
      have hne : find_empty_frame clock ≠ -1 := by omega
      have hrk : find_empty_frame clock = k := by
        by_contra hx
        rcases lt_or_gt_of_ne hx with hlt | hgt
        · exact hocc _ r0 hlt r2
        · exact r3 k (by omega) hgt (hemp k (le_refl _) (by omega))
      rw [access_page_fill fuel clock page is_write hp hne, hrk] at hres
      injection hres with hres
      subst hres
      refine ⟨k + 1, ?_, ?_, ?_, ?_, ?_⟩
      · simp only [load_page]
        push_cast
        omega
      · intro i i0 i1
        simp only [load_page]
        by_cases hi : i = k
        · rw [hi, Function.update_same]
          simp only
          omega
        · rw [Function.update_noteq hi]
          exact hocc i i0 (by push_cast at i1; omega)
      · intro i i0 i1
        simp only [load_page] at i1 ⊢
        rw [Function.update_noteq (by push_cast at i0; omega)]
        exact hemp i (by push_cast at i0; omega) i1
      · simp only [load_page]
        push_cast
        omega
      · simp only [load_page]
        exact hdw
  · rw [access_page_hit fuel clock page is_write hp] at hres
    injection hres with hres
    subst hres
    have hpages : ∀ i, ((Function.update clock.frames (find_page clock page)
        { clock.frames (find_page clock page) with
          reference_bit := true
          dirty_bit :=
            if is_write then true else (clock.frames (find_page clock page)).dirty_bit }) i
        ).page_number = (clock.frames i).page_number := by
      intro i
      by_cases hi : i = find_page clock page
      · subst hi; simp
      · simp [Function.update_noteq hi]
    refine ⟨k, hk, ?_, ?_, hpf, hdw⟩
    · intro i i0 i1
      simp only
      rw [hpages i]
      exact hocc i i0 i1
    · intro i i0 i1
      simp only
      rw [hpages i]
      exact hemp i i0 i1

/-- Claim C19.  From `init_clock n` with `1 ≤ n ≤ 100`, every sequence of
`access_page` calls on non-negative pages runs to the end, and the state
reached satisfies `page_faults = page_replacements + (number of frames with
page_number ≠ -1)` and `disk_writes ≤ page_replacements ≤ page_faults`; the
occupied frames are the first `k` frames of the table for some `k`. -/
theorem counter_accounting (n : Int) (uninit : Int → Frame) (events : List (Int × Bool))
    (fuel : Nat) (hn : 1 ≤ n ∧ n ≤ MAX_FRAMES) (hfuel : n.toNat + 1 ≤ fuel)
    (hnonneg : ∀ e ∈ events, 0 ≤ e.1) :
    ∃ clock, run_accesses fuel (init_clock n uninit) events = some clock ∧
      clock.num_frames = n ∧
      clock.page_faults = clock.page_replacements + occupied_count clock ∧
      clock.disk_writes ≤ clock.page_replacements ∧
      clock.page_replacements ≤ clock.page_faults ∧
      ∃ k : Nat, (k : Int) ≤ n ∧
        (∀ i : Int, 0 ≤ i → i < k → (clock.frames i).page_number ≠ -1) ∧
        (∀ i : Int, (k : Int) ≤ i → i < n → (clock.frames i).page_number = -1) := by
  obtain ⟨clock, hrun, hnum, -, -, -, k, hk, hocc, hemp, hpf, hdw⟩ :=
    run_accesses_induct fuel
      (fun c => c.num_frames.toNat + 1 ≤ fuel ∧
        ∃ k : Nat, (k : Int) ≤ c.num_frames ∧
        (∀ i : Int, 0 ≤ i → i < k → (c.frames i).page_number ≠ -1) ∧
        (∀ i : Int, (k : Int) ≤ i → i < c.num_frames → (c.frames i).page_number = -1) ∧
        c.page_faults = c.page_replacements + k ∧
        c.disk_writes ≤ c.page_replacements)
      (fun page => 0 ≤ page)
      (by
        intro c c1 page is_write g g0 g1 hpage hP hres
        obtain ⟨c2, hres2, hnum2, -⟩ :=
          access_page_effect fuel c page is_write g g0 g1 hP.1
        rw [hres] at hres2
        injection hres2 with hres2
        subst hres2
        exact ⟨by rw [hnum2]; exact hP.1,
          accounting_step fuel c c1 page is_write g g0 g1 hP.1 hpage hP.2 hres⟩)
      events (init_clock n uninit) hn.1 (le_refl _)
      (by simp only [init_clock]; omega) hfuel hnonneg
      ⟨hfuel, 0, by simp only [init_clock]; push_cast; omega,
        by intro i i0 i1; push_cast at i1; omega,
        by
          intro i i0 i1
          rw [init_clock_frames, if_pos ⟨by push_cast at i0; omega, i1⟩],
        by simp [init_clock], le_refl _⟩
  rw [hnum] at hk hemp
  refine ⟨clock, hrun, hnum, ?_, hdw, by omega, k, hk, hocc, hemp⟩
  rw [occupied_count_of_filled clock k (by rw [hnum]; exact hk) hocc
    (by rw [hnum]; exact hemp)]
  exact hpf

/-- Witness for C19: two frames, five references with two evictions. -/
theorem counter_accounting_witness :
    ∃ clock, run_accesses 3 (init_clock 2 stale_frames)
        [(1, true), (2, false), (1, false), (3, false), (4, true)] = some clock ∧
      clock.page_faults = clock.page_replacements + occupied_count clock ∧
      clock.disk_writes ≤ clock.page_replacements ∧
      clock.page_replacements ≤ clock.page_faults := by
  obtain ⟨clock, hrun, -, h1, h2, h3, -⟩ :=
    counter_accounting 2 stale_frames
      [(1, true), (2, false), (1, false), (3, false), (4, true)] 3
      ⟨by decide, by decide⟩ (by decide) (by decide)
  exact ⟨clock, hrun, h1, h2, h3⟩

/-! ## Clock replacement: what `init_clock` hands back -/

/-- Claim C9, as amended.  The function `init_clock` validates nothing: for
every `num_frames` up to the capacity, zero and negative values included, it
returns a manager with that `num_frames`, hand 0, zeroed counters and frames
`0 .. num_frames - 1` empty, the rest of the storage untouched; when
`1 ≤ num_frames` every `access_page` call on that manager returns: every
sequence of accesses runs to the end, keeping the table size and the hand
inside the table, and any further access returns as well. -/
theorem init_clock_postcondition (num_frames : Int) (uninit : Int → Frame)
    (_hcap : num_frames ≤ MAX_FRAMES) :
    (init_clock num_frames uninit).num_frames = num_frames ∧
    (init_clock num_frames uninit).clock_hand = 0 ∧
    (init_clock num_frames uninit).page_faults = 0 ∧
    (init_clock num_frames uninit).page_replacements = 0 ∧
    (init_clock num_frames uninit).disk_writes = 0 ∧
    (∀ i, 0 ≤ i → i < num_frames →
      (init_clock num_frames uninit).frames i = ⟨-1, false, false⟩) ∧
    (∀ i, ¬ (0 ≤ i ∧ i < num_frames) →
      (init_clock num_frames uninit).frames i = uninit i) ∧
    (1 ≤ num_frames → ∀ (fuel : Nat) (events : List (Int × Bool)),
      num_frames.toNat + 1 ≤ fuel →
      ∃ clock, run_accesses fuel (init_clock num_frames uninit) events = some clock ∧
        clock.num_frames = num_frames ∧
        0 ≤ clock.clock_hand ∧ clock.clock_hand < num_frames ∧
        ∀ (page : Int) (is_write : Bool),
          ∃ clock1, access_page fuel clock page is_write = some clock1) := by
  refine ⟨rfl, rfl, rfl, rfl, rfl, ?_, ?_, ?_⟩
  · intro i a b
    rw [init_clock_frames, if_pos ⟨a, b⟩]
  · intro i h
    rw [init_clock_frames, if_neg h]
  · intro h1 fuel events hfuel
    obtain ⟨clock, hrun, hnum, g0, g1, -⟩ :=
      run_accesses_induct fuel (fun _ => True) (fun _ => True)
        (fun _ _ _ _ _ _ _ _ _ _ => trivial) events (init_clock num_frames uninit) h1
        (le_refl _) (by simp only [init_clock]; omega) hfuel (fun _ _ => trivial) trivial
    have hnum1 : clock.num_frames = num_frames := hnum
    refine ⟨clock, hrun, hnum1, g0, by rw [← hnum1]; exact g1, ?_⟩
    intro page is_write
    obtain ⟨clock1, hres, -⟩ :=
      access_page_effect fuel clock page is_write (by omega) g0 g1
        (by rw [hnum1]; exact hfuel)
    exact ⟨clock1, hres⟩

/-- Witness for C9 as amended: one frame, two pages in turn, so that the second
access goes through `find_victim`. -/
theorem init_clock_postcondition_witness :
    (1 : Int) ≤ MAX_FRAMES ∧ (init_clock 1 stale_frames).num_frames = 1 ∧
    (init_clock 1 stale_frames).frames 0 = ⟨-1, false, false⟩ ∧
    ∃ clock, run_accesses 2 (init_clock 1 stale_frames) [(1, false), (2, false)]
        = some clock ∧
      clock.num_frames = 1 ∧ 0 ≤ clock.clock_hand ∧ clock.clock_hand < 1 ∧
      ∀ (page : Int) (is_write : Bool),
        ∃ clock1, access_page 2 clock page is_write = some clock1 :=
  ⟨by decide, (init_clock_postcondition 1 stale_frames (by decide)).1,
    (init_clock_postcondition 1 stale_frames (by decide)).2.2.2.2.2.1 0
      (by decide) (by decide),
    (init_clock_postcondition 1 stale_frames (by decide)).2.2.2.2.2.2.2
      (by decide) 2 [(1, false), (2, false)] (by decide)⟩

/-- Counterexample to C9 as stated: asked for zero frames, `init_clock` reports
no error and hands back a manager like any other, whose table has zero frames. -/
theorem init_clock_accepts_zero_frames :
    (init_clock 0 stale_frames).num_frames = 0 ∧
    (init_clock 0 stale_frames).clock_hand = 0 ∧
    (init_clock 0 stale_frames).page_faults = 0 ∧
    ¬ (1 ≤ (init_clock 0 stale_frames).num_frames ∧
        (init_clock 0 stale_frames).num_frames ≤ MAX_FRAMES) := by
  decide

end DemandPaging
